import Mathlib

set_option linter.unusedSectionVars false

/-!
Verification of the gog gossip-membership agent (HyParView-style active and
passive views with epidemic broadcast).

The development shallowly embeds the repository's Go sources:

  * arraymap/arraymap.go : the insertion-ordered map with swap-with-last
    removal (ArrayMap).
  * codec/codec.go       : the magic-framed, length-prefixed, type-tagged
    wire codec (WriteMsg / ReadMsg).  The protobuf serializer proper is an
    external library (github.com/gogo/protobuf); it is modelled as a
    marshal / unmarshal parameter pair.
  * agent/agent.go       : view maintenance (addNodeActiveView,
    addNodePassiveView, chooseRandomNode, chooseRandomCandidates) and the
    protocol handlers (handleJoin, handleNeighbor, handleForwardJoin,
    handleShuffle, handleShuffleReply, handleUserMessage,
    replaceActiveNode).

Go slices and maps become Lean lists; uint64 node identifiers become Nat
(they are only compared for equality); int64 wall-clock nanosecond times
become Int.  Calls of the global PRNG (rand.Intn) are modelled by an
explicit list of draws threaded through each operation, one element per
call, so that universally quantified theorems cover every possible random
outcome.  A Go nil-pointer dereference (chooseRandomNode returning nil and
the result being dereferenced) is modelled by an Option-valued state:
none stands for a runtime panic or a non-returning execution.
-/

/-! ## Ordered map with indexed removal (arraymap/arraymap.go) -/

/-- The insertion-ordered map.  The Go struct keeps parallel arrays
keys / values plus a positions index map; positions is always the index of
the key in keys, so the embedding keeps a single list of key-value pairs. -/
structure ArrayMap (K V : Type) where
  entries : List (K × V)
  deriving Repr, DecidableEq

namespace ArrayMap

variable {K V : Type} [DecidableEq K]

/-- NewArrayMap. -/
def empty : ArrayMap K V := ⟨[]⟩

/-- Len. -/
def Len (a : ArrayMap K V) : Nat := a.entries.length

/-- The positions index map: position of a key in the backing array. -/
def findIndex : List (K × V) → K → Option Nat
  | [], _ => none
  | e :: es, k => if e.1 = k then some 0 else (findIndex es k).map (· + 1)

/-- Has. -/
def Has (a : ArrayMap K V) (k : K) : Bool := (findIndex a.entries k).isSome

/-- Add: overwrite in place when the key is present (returning the old
value), append at the tail otherwise. -/
def Add (a : ArrayMap K V) (k : K) (v : V) : ArrayMap K V × Option V :=
  match findIndex a.entries k with
  | some p => (⟨a.entries.set p (k, v)⟩, (a.entries.get? p).map (·.2))
  | none => (⟨a.entries ++ [(k, v)]⟩, none)

/-- GetValueAt (callers guarantee the index is in range). -/
def GetValueAt (a : ArrayMap K V) (i : Nat) (h : i < a.Len) : V :=
  (a.entries.get ⟨i, h⟩).2

/-- GetValueOf, guarded: the Go code only calls GetValueOf after Has. -/
def GetValueOf (a : ArrayMap K V) (k : K) : Option V :=
  (findIndex a.entries k).bind fun i => (a.entries.get? i).map (·.2)

/-- removeAt: swap the removed slot with the tail slot, shorten by one. -/
def removeAt (a : ArrayMap K V) (i : Nat) : ArrayMap K V :=
  match a.entries.getLast? with
  | none => a
  | some last => ⟨(a.entries.set i last).dropLast⟩

/-- Remove: indexed removal of the key's slot; reports whether the key
was present. -/
def Remove (a : ArrayMap K V) (k : K) : ArrayMap K V × Bool :=
  match findIndex a.entries k with
  | some p => (a.removeAt p, true)
  | none => (a, false)

/-- RemoveAll. -/
def RemoveAll (_ : ArrayMap K V) : ArrayMap K V := ⟨[]⟩

/-- Values snapshot. -/
def Values (a : ArrayMap K V) : List V := a.entries.map (·.2)

/-- The keys of the map are pairwise distinct.  Every reachable ArrayMap
satisfies this: Add never duplicates a key and removal deletes one. -/
def KeysNodup (a : ArrayMap K V) : Prop := (a.entries.map Prod.fst).Nodup

/-! ### Basic facts about findIndex -/

theorem findIndex_eq_none_iff {l : List (K × V)} {k : K} :
    findIndex l k = none ↔ ∀ e ∈ l, e.1 ≠ k := by
  induction l with
  | nil => simp [findIndex]
  | cons e es ih =>
    by_cases h : e.1 = k <;> simp [findIndex, h, ih]

theorem findIndex_isSome_iff {l : List (K × V)} {k : K} :
    (findIndex l k).isSome = true ↔ ∃ e ∈ l, e.1 = k := by
  rw [Option.isSome_iff_ne_none]
  rw [ne_eq, findIndex_eq_none_iff]
  push_neg
  simp

theorem findIndex_spec {l : List (K × V)} {k : K} {i : Nat}
    (h : findIndex l k = some i) :
    ∃ hi : i < l.length, (l.get ⟨i, hi⟩).1 = k := by
  induction l generalizing i with
  | nil => simp [findIndex] at h
  | cons e es ih =>
    rw [findIndex] at h
    by_cases he : e.1 = k
    · rw [if_pos he] at h
      injection h with h
      subst h
      exact ⟨Nat.succ_pos _, he⟩
    · rw [if_neg he] at h
      cases hf : findIndex es k with
      | none => rw [hf] at h; simp at h
      | some j =>
        rw [hf] at h
        simp only [Option.map_some'] at h
        injection h with h
        subst h
        obtain ⟨hjl, hget⟩ := ih hf
        exact ⟨Nat.succ_lt_succ hjl, hget⟩

theorem Has_iff_mem_keys {a : ArrayMap K V} {k : K} :
    a.Has k = true ↔ k ∈ a.entries.map Prod.fst := by
  simp only [Has, findIndex_isSome_iff, List.mem_map]

/-! ### Length lemmas -/

theorem Len_Add_of_has {a : ArrayMap K V} {k : K} (v : V)
    (h : a.Has k = true) : (a.Add k v).1.Len = a.Len := by
  unfold Has at h
  obtain ⟨p, hp⟩ := Option.isSome_iff_exists.1 h
  simp [Add, hp, Len]

theorem Len_Add_of_not_has {a : ArrayMap K V} {k : K} (v : V)
    (h : ¬ a.Has k = true) : (a.Add k v).1.Len = a.Len + 1 := by
  unfold Has at h
  rw [Option.isSome_iff_exists] at h
  push_neg at h
  have hnone : findIndex a.entries k = none := by
    cases hf : findIndex a.entries k with
    | none => rfl
    | some p => exact absurd hf (h p)
  simp [Add, hnone, Len]

theorem Len_removeAt {a : ArrayMap K V} {i : Nat} (h : i < a.Len) :
    (a.removeAt i).Len = a.Len - 1 := by
  have hne : a.entries ≠ [] := by
    intro he
    rw [Len, he] at h
    simp at h
  obtain ⟨last, hlast⟩ := Option.isSome_iff_exists.1
    (List.getLast?_isSome.2 hne)
  simp [removeAt, hlast, Len]

theorem Len_Remove_of_has {a : ArrayMap K V} {k : K}
    (h : a.Has k = true) : (a.Remove k).1.Len = a.Len - 1 := by
  unfold Has at h
  obtain ⟨p, hp⟩ := Option.isSome_iff_exists.1 h
  obtain ⟨hpl, _⟩ := findIndex_spec hp
  simp [Remove, hp, Len_removeAt hpl]

theorem Len_Remove_of_not_has {a : ArrayMap K V} {k : K}
    (h : ¬ a.Has k = true) : (a.Remove k).1 = a := by
  unfold Has at h
  rw [Option.isSome_iff_exists] at h
  push_neg at h
  have hnone : findIndex a.entries k = none := by
    cases hf : findIndex a.entries k with
    | none => rfl
    | some p => exact absurd hf (h p)
  simp [Remove, hnone]

/-! ### Membership characterization of removal and insertion -/

theorem keys_get_ne_of_nodup {l : List (K × V)}
    (hnd : (l.map Prod.fst).Nodup) {i j : Nat}
    (hi : i < l.length) (hj : j < l.length) (hij : i ≠ j) :
    (l.get ⟨i, hi⟩).1 ≠ (l.get ⟨j, hj⟩).1 := by
  intro he
  apply hij
  have hi2 : i < (l.map Prod.fst).length := by simpa using hi
  have hj2 : j < (l.map Prod.fst).length := by simpa using hj
  have hij2 : (l.map Prod.fst)[i] = (l.map Prod.fst)[j] := by
    simpa [List.getElem_map, List.get_eq_getElem] using he
  exact (List.Nodup.getElem_inj_iff hnd).1 hij2

theorem removeAt_get? {a : ArrayMap K V} {i : Nat} (hi : i < a.Len)
    (j : Nat) (hj : j < a.Len - 1) :
    (a.removeAt i).entries.get? j =
      a.entries.get? (if j = i then a.entries.length - 1 else j) := by
  have hL : a.Len = a.entries.length := rfl
  rw [hL] at hi hj
  have hne : a.entries ≠ [] := by
    intro he; rw [he] at hi; simp at hi
  have hlast := List.getLast?_eq_getLast a.entries hne
  unfold removeAt
  rw [hlast]
  simp only
  have hsetlen : (a.entries.set i (a.entries.getLast hne)).length
      = a.entries.length := List.length_set ..
  have hjd : j < (a.entries.set i (a.entries.getLast hne)).dropLast.length := by
    rw [List.length_dropLast, hsetlen]; omega
  rw [List.get?_eq_get hjd]
  by_cases hji : j = i
  · subst hji
    rw [if_pos rfl]
    have hn1 : a.entries.length - 1 < a.entries.length := by omega
    rw [List.get?_eq_get hn1]
    congr 1
    simp only [List.get_eq_getElem]
    rw [List.getElem_dropLast]
    simp only [List.getElem_set_self]
    exact List.getLast_eq_getElem a.entries hne
  · rw [if_neg hji]
    have hjl : j < a.entries.length := by omega
    rw [List.get?_eq_get hjl]
    congr 1
    simp only [List.get_eq_getElem]
    rw [List.getElem_dropLast]
    rw [List.getElem_set_ne (show i ≠ j from fun h => hji h.symm)]

theorem removeAt_get_eq {a : ArrayMap K V} {i : Nat} (hi : i < a.Len)
    {j : Nat} (hj : j < a.entries.length - 1)
    (hj2 : j < (a.removeAt i).entries.length)
    (hs : (if j = i then a.entries.length - 1 else j) < a.entries.length) :
    (a.removeAt i).entries.get ⟨j, hj2⟩ =
      a.entries.get ⟨if j = i then a.entries.length - 1 else j, hs⟩ := by
  have h1 := List.get?_eq_get hj2
  have h2 := removeAt_get? hi j (show j < a.Len - 1 from hj)
  have h3 := List.get?_eq_get hs
  rw [h1, h3] at h2
  exact Option.some.inj h2

theorem Len_entries_removeAt {a : ArrayMap K V} {i : Nat} (hi : i < a.Len) :
    (a.removeAt i).entries.length = a.entries.length - 1 :=
  Len_removeAt hi

theorem mem_entries_removeAt_iff {a : ArrayMap K V} {i : Nat}
    (hi : i < a.Len) (hnd : a.KeysNodup) {z : K × V} :
    z ∈ (a.removeAt i).entries ↔
      z ∈ a.entries ∧ z.1 ≠ (a.entries.get ⟨i, hi⟩).1 := by
  have hL : a.Len = a.entries.length := rfl
  have hi1 : i < a.entries.length := hi
  constructor
  · intro hz
    obtain ⟨⟨j, hj⟩, hzj⟩ := List.mem_iff_get.1 hz
    have hj1 : j < a.entries.length - 1 := by
      have := Len_entries_removeAt hi
      omega
    have hs : (if j = i then a.entries.length - 1 else j) < a.entries.length := by
      split <;> omega
    have hz2 : z = a.entries.get
        ⟨if j = i then a.entries.length - 1 else j, hs⟩ :=
      hzj.symm.trans (removeAt_get_eq hi hj1 hj hs)
    constructor
    · rw [hz2]; exact List.get_mem ..
    · rw [hz2]
      apply keys_get_ne_of_nodup hnd hs hi1
      split <;> omega
  · rintro ⟨hz, hzk⟩
    obtain ⟨⟨j, hj⟩, hzj⟩ := List.mem_iff_get.1 hz
    have hji : j ≠ i := by
      intro he
      apply hzk
      rw [← hzj]
      exact congrArg Prod.fst (by
        subst he
        rfl)
    -- target index in the shortened list
    have htlt : (if j = a.entries.length - 1 then i else j) < a.entries.length - 1 := by
      split <;> omega
    have hlen2 : (a.removeAt i).entries.length = a.entries.length - 1 :=
      Len_entries_removeAt hi
    have ht2 : (if j = a.entries.length - 1 then i else j)
        < (a.removeAt i).entries.length := by
      rw [hlen2]; exact htlt
    have hs : (if (if j = a.entries.length - 1 then i else j) = i
        then a.entries.length - 1
        else (if j = a.entries.length - 1 then i else j)) < a.entries.length := by
      by_cases hc : (if j = a.entries.length - 1 then i else j) = i
      · rw [if_pos hc]; omega
      · rw [if_neg hc]; omega
    rw [List.mem_iff_get]
    refine ⟨⟨if j = a.entries.length - 1 then i else j, ht2⟩, ?_⟩
    rw [removeAt_get_eq hi htlt ht2 hs]
    have hidx : (if (if j = a.entries.length - 1 then i else j) = i
        then a.entries.length - 1
        else (if j = a.entries.length - 1 then i else j)) = j := by
      by_cases hj1 : j = a.entries.length - 1
      · simp [hj1]
      · simp [hj1, hji]
    rw [show a.entries.get ⟨_, hs⟩ = a.entries.get ⟨j, hj⟩ from by
      congr 1
      exact Fin.ext hidx]
    exact hzj

theorem mem_entries_of_mem_removeAt {a : ArrayMap K V} {i : Nat} {z : K × V}
    (hz : z ∈ (a.removeAt i).entries) : z ∈ a.entries := by
  unfold removeAt at hz
  cases hlast : a.entries.getLast? with
  | none => rw [hlast] at hz; exact hz
  | some last =>
    rw [hlast] at hz
    simp only at hz
    have hne : a.entries ≠ [] := by
      intro he
      rw [he] at hlast
      simp at hlast
    have hlv : last = a.entries.getLast hne := by
      have := List.getLast?_eq_getLast a.entries hne
      rw [hlast] at this
      exact Option.some.inj this
    have hmem := List.mem_of_mem_dropLast hz
    rcases List.mem_or_eq_of_mem_set hmem with h | h
    · exact h
    · rw [h, hlv]; exact List.getLast_mem hne

theorem mem_entries_Remove_iff {a : ArrayMap K V} {k : K}
    (hnd : a.KeysNodup) {z : K × V} :
    z ∈ (a.Remove k).1.entries ↔ z ∈ a.entries ∧ z.1 ≠ k := by
  unfold Remove
  cases hf : findIndex a.entries k with
  | none =>
    simp only
    have hk := findIndex_eq_none_iff.1 hf
    exact ⟨fun hz => ⟨hz, hk z hz⟩, fun h => h.1⟩
  | some p =>
    simp only
    obtain ⟨hp, hkey⟩ := findIndex_spec hf
    rw [mem_entries_removeAt_iff hp hnd, hkey]

theorem mem_entries_of_mem_Remove {a : ArrayMap K V} {k : K} {z : K × V}
    (hz : z ∈ (a.Remove k).1.entries) : z ∈ a.entries := by
  unfold Remove at hz
  cases hf : findIndex a.entries k with
  | none => rw [hf] at hz; exact hz
  | some p => rw [hf] at hz; exact mem_entries_of_mem_removeAt hz

theorem KeysNodup_removeAt {a : ArrayMap K V} {i : Nat}
    (hi : i < a.Len) (hnd : a.KeysNodup) : (a.removeAt i).KeysNodup := by
  have hi1 : i < a.entries.length := hi
  rw [KeysNodup, List.nodup_iff_injective_get]
  rintro ⟨x, hx⟩ ⟨y, hy⟩ hxy
  have hlen := Len_entries_removeAt hi
  have hx0 : x < (a.removeAt i).entries.length := by simpa using hx
  have hy0 : y < (a.removeAt i).entries.length := by simpa using hy
  have hx1 : x < a.entries.length - 1 := by omega
  have hy1 : y < a.entries.length - 1 := by omega
  have hsx : (if x = i then a.entries.length - 1 else x) < a.entries.length := by
    split <;> omega
  have hsy : (if y = i then a.entries.length - 1 else y) < a.entries.length := by
    split <;> omega
  have hgx : ((a.removeAt i).entries.map Prod.fst).get ⟨x, hx⟩
      = ((a.removeAt i).entries.get ⟨x, hx0⟩).1 := List.get_map ..
  have hgy : ((a.removeAt i).entries.map Prod.fst).get ⟨y, hy⟩
      = ((a.removeAt i).entries.get ⟨y, hy0⟩).1 := List.get_map ..
  have hkeq : (a.entries.get ⟨if x = i then a.entries.length - 1 else x, hsx⟩).1
      = (a.entries.get ⟨if y = i then a.entries.length - 1 else y, hsy⟩).1 := by
    rw [← removeAt_get_eq hi hx1 hx0 hsx, ← removeAt_get_eq hi hy1 hy0 hsy]
    rw [← hgx, ← hgy, hxy]
  have hidx : (if x = i then a.entries.length - 1 else x)
      = (if y = i then a.entries.length - 1 else y) := by
    by_contra hne2
    exact keys_get_ne_of_nodup hnd hsx hsy hne2 hkeq
  apply Fin.ext
  simp only
  by_cases hxi : x = i <;> by_cases hyi : y = i <;>
    simp [hxi, hyi] at hidx ⊢ <;> omega

theorem KeysNodup_Remove {a : ArrayMap K V} {k : K}
    (hnd : a.KeysNodup) : (a.Remove k).1.KeysNodup := by
  unfold Remove
  cases hf : findIndex a.entries k with
  | none => exact hnd
  | some p =>
    obtain ⟨hp, _⟩ := findIndex_spec hf
    exact KeysNodup_removeAt hp hnd

theorem mem_entries_Add_iff {a : ArrayMap K V} {k : K} {v : V}
    (hnd : a.KeysNodup) {z : K × V} :
    z ∈ (a.Add k v).1.entries ↔
      z = (k, v) ∨ (z ∈ a.entries ∧ z.1 ≠ k) := by
  unfold Add
  cases hf : findIndex a.entries k with
  | none =>
    simp only
    have hk := findIndex_eq_none_iff.1 hf
    rw [List.mem_append]
    constructor
    · rintro (hz | hz)
      · exact Or.inr ⟨hz, hk z hz⟩
      · simp at hz; exact Or.inl hz
    · rintro (rfl | ⟨hz, _⟩)
      · simp
      · exact Or.inl hz
  | some p =>
    simp only
    obtain ⟨hp, hkey⟩ := findIndex_spec hf
    constructor
    · intro hz
      obtain ⟨⟨j, hj⟩, hzj⟩ := List.mem_iff_get.1 hz
      have hj1 : j < a.entries.length := by
        simpa [List.length_set] using hj
      by_cases hjp : j = p
      · subst hjp
        left
        have hget : (a.entries.set j (k, v)).get ⟨j, hj⟩ = (k, v) := by
          simp only [List.get_eq_getElem]
          simp only [List.getElem_set_self]
        exact hzj.symm.trans hget
      · right
        have hget : (a.entries.set p (k, v)).get ⟨j, hj⟩
            = a.entries.get ⟨j, hj1⟩ := by
          simp only [List.get_eq_getElem]
          rw [List.getElem_set_ne (show p ≠ j from fun h => hjp h.symm)]
        have hz2 : z = a.entries.get ⟨j, hj1⟩ := hzj.symm.trans hget
        constructor
        · rw [hz2]; exact List.get_mem ..
        · rw [hz2, ← hkey]
          exact keys_get_ne_of_nodup hnd hj1 hp hjp
    · rintro (rfl | ⟨hz, hzk⟩)
      · rw [List.mem_iff_get]
        have hp2 : p < (a.entries.set p (k, v)).length := by
          simpa [List.length_set] using hp
        refine ⟨⟨p, hp2⟩, ?_⟩
        simp only [List.get_eq_getElem]
        simp only [List.getElem_set_self]
      · obtain ⟨⟨j, hj⟩, hzj⟩ := List.mem_iff_get.1 hz
        have hjp : j ≠ p := by
          intro he
          apply hzk
          rw [← hzj, ← hkey]
          exact congrArg Prod.fst (by subst he; rfl)
        rw [List.mem_iff_get]
        have hj2 : j < (a.entries.set p (k, v)).length := by
          simpa [List.length_set] using hj
        refine ⟨⟨j, hj2⟩, ?_⟩
        have hget : (a.entries.set p (k, v)).get ⟨j, hj2⟩
            = a.entries.get ⟨j, hj⟩ := by
          simp only [List.get_eq_getElem]
          rw [List.getElem_set_ne (show p ≠ j from fun h => hjp h.symm)]
        exact hget.trans hzj

theorem KeysNodup_Add {a : ArrayMap K V} {k : K} {v : V}
    (hnd : a.KeysNodup) : (a.Add k v).1.KeysNodup := by
  unfold Add
  cases hf : findIndex a.entries k with
  | none =>
    have hk := findIndex_eq_none_iff.1 hf
    have hkn : k ∉ a.entries.map Prod.fst := by
      rw [List.mem_map]
      rintro ⟨e, he, rfl⟩
      exact hk e he rfl
    unfold KeysNodup at hnd ⊢
    simp only [List.map_append, List.map_cons, List.map_nil]
    simp [List.nodup_append, hnd, hkn]
  | some p =>
    obtain ⟨hp, hkey⟩ := findIndex_spec hf
    unfold KeysNodup
    simp only
    rw [List.map_set]
    have hp2 : p < (a.entries.map Prod.fst).length := by simpa using hp
    have hk2 : (a.entries.map Prod.fst).get ⟨p, hp2⟩ = k := by
      rw [List.get_map]
      exact hkey
    have hself : (a.entries.map Prod.fst).set p k = a.entries.map Prod.fst := by
      apply List.ext_get (by simp [List.length_set])
      intro n h1 h2
      simp only [List.get_eq_getElem]
      by_cases hnp : p = n
      · subst hnp
        simp only [List.getElem_set_self]
        rw [← hk2]
        simp [List.get_eq_getElem]
      · rw [List.getElem_set_ne hnp]
    rw [hself]
    exact hnd

theorem KeysNodup_empty : (empty : ArrayMap K V).KeysNodup := by
  simp [KeysNodup, empty]

theorem Has_iff_exists_mem {a : ArrayMap K V} {k : K} :
    a.Has k = true ↔ ∃ v, (k, v) ∈ a.entries := by
  rw [Has_iff_mem_keys, List.mem_map]
  constructor
  · rintro ⟨e, he, rfl⟩; exact ⟨e.2, he⟩
  · rintro ⟨v, hv⟩; exact ⟨(k, v), hv, rfl⟩

theorem GetValueOf_eq_some_iff {a : ArrayMap K V} {k : K} {v : V}
    (hnd : a.KeysNodup) : a.GetValueOf k = some v ↔ (k, v) ∈ a.entries := by
  unfold GetValueOf
  cases hf : findIndex a.entries k with
  | none =>
    simp only [Option.none_bind]
    have hk := findIndex_eq_none_iff.1 hf
    constructor
    · intro h; simp at h
    · intro hv; exact absurd rfl (hk (k, v) hv)
  | some p =>
    obtain ⟨hp, hkey⟩ := findIndex_spec hf
    simp only [Option.some_bind]
    rw [List.get?_eq_get hp]
    simp only [Option.map_some']
    constructor
    · intro h
      injection h with h
      have hz : (k, v) = a.entries.get ⟨p, hp⟩ := by
        rw [← hkey, ← h]
      rw [hz]
      exact List.get_mem ..
    · intro hv
      obtain ⟨⟨j, hj⟩, hzj⟩ := List.mem_iff_get.1 hv
      have hjp : j = p := by
        by_contra hne2
        apply keys_get_ne_of_nodup hnd hj hp hne2
        rw [hzj, hkey]
      subst hjp
      have hz2 : a.entries.get ⟨j, hp⟩ = (k, v) := hzj
      rw [hz2]

theorem GetValueOf_eq_none_iff {a : ArrayMap K V} {k : K} :
    a.GetValueOf k = none ↔ a.Has k = false := by
  unfold GetValueOf Has
  cases hf : findIndex a.entries k with
  | none => simp
  | some p =>
    obtain ⟨hp, _⟩ := findIndex_spec hf
    simp only [Option.some_bind, Option.isSome_some]
    rw [List.get?_eq_get hp]
    simp

theorem Has_Add_iff {a : ArrayMap K V} {k j : K} {v : V}
    (hnd : a.KeysNodup) :
    (a.Add k v).1.Has j = true ↔ (j = k ∨ a.Has j = true) := by
  rw [Has_iff_exists_mem, Has_iff_exists_mem]
  constructor
  · rintro ⟨w, hw⟩
    rcases (mem_entries_Add_iff hnd).1 hw with h | ⟨h, _⟩
    · left
      exact congrArg Prod.fst h
    · right; exact ⟨w, h⟩
  · rintro (rfl | ⟨w, hw⟩)
    · exact ⟨v, (mem_entries_Add_iff hnd).2 (Or.inl rfl)⟩
    · by_cases hjk : j = k
      · subst hjk
        exact ⟨v, (mem_entries_Add_iff hnd).2 (Or.inl rfl)⟩
      · exact ⟨w, (mem_entries_Add_iff hnd).2 (Or.inr ⟨hw, hjk⟩)⟩

theorem Has_Remove_iff {a : ArrayMap K V} {k j : K}
    (hnd : a.KeysNodup) :
    (a.Remove k).1.Has j = true ↔ (a.Has j = true ∧ j ≠ k) := by
  rw [Has_iff_exists_mem, Has_iff_exists_mem]
  constructor
  · rintro ⟨w, hw⟩
    obtain ⟨h1, h2⟩ := (mem_entries_Remove_iff hnd).1 hw
    exact ⟨⟨w, h1⟩, h2⟩
  · rintro ⟨⟨w, hw⟩, hjk⟩
    exact ⟨w, (mem_entries_Remove_iff hnd).2 ⟨hw, hjk⟩⟩

theorem not_Has_Remove {a : ArrayMap K V} {k j : K}
    (h : ¬ a.Has j = true) : ¬ (a.Remove k).1.Has j = true := by
  intro h2
  apply h
  rw [Has_iff_exists_mem] at h2 ⊢
  obtain ⟨w, hw⟩ := h2
  exact ⟨w, mem_entries_of_mem_Remove hw⟩

end ArrayMap

/-! ## Interleavings of Add and Remove (arraymap functional model) -/

/-- One ordered-map operation of the interleaving considered by the spec. -/
inductive MapOp (K V : Type) where
  | add (k : K) (v : V)
  | remove (k : K)
  deriving Repr, DecidableEq

/-- Apply one operation to an ArrayMap (discarding the returned
old-value / was-present flags, which do not affect the state). -/
def applyOp {K V : Type} [DecidableEq K] (a : ArrayMap K V) :
    MapOp K V → ArrayMap K V
  | .add k v => (a.Add k v).1
  | .remove k => (a.Remove k).1

/-- Run a sequence of operations on the empty ArrayMap. -/
def runOps {K V : Type} [DecidableEq K] (ops : List (MapOp K V)) : ArrayMap K V :=
  ops.foldl applyOp ArrayMap.empty

/-- Modelled from the spec: the reference insertion-ordered mapping.  An
add places the key-value pair at the end (its most recent insertion
position); a remove erases the key.  The values snapshot of this
reference lists surviving values in insertion order of their most recent
add, which is what the spec asserts of ArrayMap.Values. -/
def specApply {K V : Type} [DecidableEq K] (l : List (K × V)) :
    MapOp K V → List (K × V)
  | .add k v => l.filter (fun e => decide (e.1 ≠ k)) ++ [(k, v)]
  | .remove k => l.filter (fun e => decide (e.1 ≠ k))

/-- Modelled from the spec: run the reference mapping from empty. -/
def specRun {K V : Type} [DecidableEq K] (ops : List (MapOp K V)) : List (K × V) :=
  ops.foldl specApply []

/-- Modelled from the spec: surviving values in insertion order of their
most recent add. -/
def specValues {K V : Type} [DecidableEq K] (ops : List (MapOp K V)) : List V :=
  (specRun ops).map (·.2)

theorem specApply_keys_nodup {K V : Type} [DecidableEq K]
    {l : List (K × V)} (hnd : (l.map Prod.fst).Nodup) (op : MapOp K V) :
    ((specApply l op).map Prod.fst).Nodup := by
  have hfil : ∀ k : K,
      ((l.filter (fun e => decide (e.1 ≠ k))).map Prod.fst).Nodup := by
    intro k
    exact List.Nodup.sublist (List.Sublist.map _ (List.filter_sublist l)) hnd
  cases op with
  | add k v =>
    simp only [specApply, List.map_append, List.map_cons, List.map_nil]
    rw [List.nodup_append]
    refine ⟨hfil k, List.nodup_singleton k, ?_⟩
    intro x hx
    simp only [List.mem_map] at hx
    obtain ⟨e, he, rfl⟩ := hx
    have := List.of_mem_filter he
    simp at this
    simpa using this
  | remove k => exact hfil k

theorem mem_specApply_add {K V : Type} [DecidableEq K]
    {l : List (K × V)} {k : K} {v : V} {z : K × V} :
    z ∈ specApply l (.add k v) ↔ z = (k, v) ∨ (z ∈ l ∧ z.1 ≠ k) := by
  simp only [specApply, List.mem_append, List.mem_filter, List.mem_singleton]
  constructor
  · rintro (⟨h1, h2⟩ | h)
    · right
      refine ⟨h1, ?_⟩
      simpa using h2
    · left; exact h
  · rintro (h | ⟨h1, h2⟩)
    · right; exact h
    · left
      refine ⟨h1, ?_⟩
      simpa using h2

theorem mem_specApply_remove {K V : Type} [DecidableEq K]
    {l : List (K × V)} {k : K} {z : K × V} :
    z ∈ specApply l (.remove k) ↔ z ∈ l ∧ z.1 ≠ k := by
  simp only [specApply, List.mem_filter]
  constructor
  · rintro ⟨h1, h2⟩
    refine ⟨h1, ?_⟩
    simpa using h2
  · rintro ⟨h1, h2⟩
    refine ⟨h1, ?_⟩
    simpa using h2

theorem foldl_agrees {K V : Type} [DecidableEq K]
    (ops : List (MapOp K V)) (a : ArrayMap K V) (l : List (K × V))
    (hnd : a.KeysNodup) (hnd2 : (l.map Prod.fst).Nodup)
    (hmem : ∀ z, z ∈ a.entries ↔ z ∈ l) :
    (ops.foldl applyOp a).KeysNodup ∧
      ((ops.foldl specApply l).map Prod.fst).Nodup ∧
      (∀ z, z ∈ (ops.foldl applyOp a).entries ↔ z ∈ ops.foldl specApply l) := by
  induction ops generalizing a l with
  | nil => exact ⟨hnd, hnd2, hmem⟩
  | cons op ops ih =>
    simp only [List.foldl_cons]
    cases op with
    | add k v =>
      apply ih
      · exact ArrayMap.KeysNodup_Add hnd
      · exact specApply_keys_nodup hnd2 _
      · intro z
        rw [show applyOp a (.add k v) = (a.Add k v).1 from rfl]
        rw [ArrayMap.mem_entries_Add_iff hnd, mem_specApply_add, hmem z]
    | remove k =>
      apply ih
      · exact ArrayMap.KeysNodup_Remove hnd
      · exact specApply_keys_nodup hnd2 _
      · intro z
        rw [show applyOp a (.remove k) = (a.Remove k).1 from rfl]
        rw [ArrayMap.mem_entries_Remove_iff hnd, mem_specApply_remove, hmem z]

theorem runOps_perm_specRun {K V : Type} [DecidableEq K]
    (ops : List (MapOp K V)) :
    List.Perm (runOps ops).entries (specRun ops) := by
  obtain ⟨h1, h2, h3⟩ := foldl_agrees ops ArrayMap.empty []
    ArrayMap.KeysNodup_empty (by simp) (by simp [ArrayMap.empty])
  have hn1 : (runOps ops).entries.Nodup := List.Nodup.of_map Prod.fst h1
  have hn2 : (specRun ops).Nodup := List.Nodup.of_map Prod.fst h2
  exact (List.perm_ext_iff_of_nodup hn1 hn2).2 h3

/-- The key named by an operation. -/
def opKey {K V : Type} : MapOp K V → K
  | .add k _ => k
  | .remove k => k

theorem runOps_addOnly {K V : Type} [DecidableEq K]
    (ops : List (MapOp K V)) (a : ArrayMap K V) (l : List (K × V))
    (heq : a.entries = l)
    (hadds : ∀ op ∈ ops, ∀ k : K, op ≠ MapOp.remove k)
    (hnd : (l.map Prod.fst ++ ops.map opKey).Nodup) :
    (ops.foldl applyOp a).entries = ops.foldl specApply l := by
  induction ops generalizing a l with
  | nil => exact heq
  | cons op ops ih =>
    simp only [List.foldl_cons]
    cases op with
    | remove k =>
      exact absurd rfl (hadds _ (List.mem_cons_self _ _) k)
    | add k v =>
      have hdisj := (List.nodup_append.1 hnd).2.2
      have hk1 : ∀ e ∈ l, e.1 ≠ k := by
        intro e he hek
        apply hdisj (a := e.1) (List.mem_map_of_mem Prod.fst he)
        rw [hek]
        simp [opKey]
      have hnew : (a.Add k v).1.entries = l ++ [(k, v)] := by
        have hnone : ArrayMap.findIndex a.entries k = none := by
          rw [ArrayMap.findIndex_eq_none_iff, heq]
          exact hk1
        unfold ArrayMap.Add
        rw [hnone]
        simp [heq]
      have hspec : specApply l (.add k v) = l ++ [(k, v)] := by
        simp only [specApply]
        congr 1
        apply List.filter_eq_self.2
        intro e he
        simpa using hk1 e he
      rw [show applyOp a (.add k v) = (a.Add k v).1 from rfl, hspec]
      apply ih _ _ hnew
      · intro op2 h2 k2
        exact hadds op2 (List.mem_cons_of_mem _ h2) k2
      · rw [List.map_append]
        rw [List.append_assoc]
        simpa [opKey] using hnd

theorem runOps_perm_specRun_final {K V : Type} [DecidableEq K]
    (ops : List (MapOp K V)) :
    List.Perm (runOps ops).Values (specValues ops) :=
  List.Perm.map _ (runOps_perm_specRun ops)

/-- C5 (counterexample): the claim that the values snapshot lists
surviving values in insertion order of their most recent Add fails.
After Add 1, Add 2, Add 3, Remove 1 the swap-with-last removal yields
values in the order 30, 20, while the insertion order of the survivors
is 20, 30. -/
theorem claim_C5_counterexample :
    (runOps [MapOp.add 1 10, MapOp.add 2 20, MapOp.add 3 30, MapOp.remove 1]
      : ArrayMap Nat Nat).Values ≠
    specValues [MapOp.add 1 10, MapOp.add 2 20, MapOp.add 3 30,
      MapOp.remove 1] := by
  decide

/-- C5 (amended): after any interleaving of Add and Remove on distinct
keys the values snapshot contains exactly the surviving values of the
most recent Adds, but only as a permutation of the insertion order:
removal swaps the last slot into the removed slot.  When no Remove is
performed (and the added keys are distinct) the snapshot does list the
values in insertion order. -/
theorem claim_C5_values (K V : Type) [DecidableEq K]
    (ops : List (MapOp K V)) :
    List.Perm (runOps ops).Values (specValues ops) ∧
    ((∀ op ∈ ops, ∀ k : K, op ≠ MapOp.remove k) →
      (ops.map opKey).Nodup →
      (runOps ops).Values = specValues ops) := by
  constructor
  · exact List.Perm.map _ (runOps_perm_specRun ops)
  · intro h1 h2
    have heq := runOps_addOnly ops ArrayMap.empty [] rfl h1 (by simpa using h2)
    rw [ArrayMap.Values, specValues, runOps, specRun, heq]

/-- C5 witness: the amended theorem applied to a concrete add-only
interleaving. -/
theorem claim_C5_values_witness :
    (runOps [MapOp.add 1 10, MapOp.add 2 20] : ArrayMap Nat Nat).Values =
      specValues [MapOp.add 1 10, MapOp.add 2 20] :=
  (claim_C5_values Nat Nat [MapOp.add 1 10, MapOp.add 2 20]).2
    (by
      intro op hop k
      rcases List.mem_cons.1 hop with rfl | hop
      · simp
      · rcases List.mem_cons.1 hop with rfl | hop
        · simp
        · simp at hop)
    (by decide)

/-! ## Message types (message/message.proto) -/

/-- UserMessage: payload plus origin timestamp (nanoseconds). -/
structure UserMessage where
  id : Nat
  payload : List Nat
  ts : Int
  deriving Repr, DecidableEq

/-- Join request. -/
structure JoinMsg where
  id : Nat
  addr : String
  deriving Repr, DecidableEq

/-- Join reply. -/
structure JoinReplyMsg where
  id : Nat
  accept : Bool
  deriving Repr, DecidableEq

/-- ForwardJoin request. -/
structure ForwardJoinMsg where
  id : Nat
  sourceId : Nat
  sourceAddr : String
  ttl : Nat
  deriving Repr, DecidableEq

/-- Neighbor priority. -/
inductive Priority where
  | low
  | high
  deriving Repr, DecidableEq

/-- Neighbor request. -/
structure NeighborMsg where
  id : Nat
  addr : String
  priority : Priority
  deriving Repr, DecidableEq

/-- Neighbor reply. -/
structure NeighborReplyMsg where
  id : Nat
  accept : Bool
  deriving Repr, DecidableEq

/-- Disconnect request. -/
structure DisconnectMsg where
  id : Nat
  deriving Repr, DecidableEq

/-- Shuffle candidate. -/
structure Candidate where
  id : Nat
  addr : String
  deriving Repr, DecidableEq

/-- Shuffle request. -/
structure ShuffleMsg where
  id : Nat
  sourceId : Nat
  addr : String
  candidates : List Candidate
  ttl : Nat
  deriving Repr, DecidableEq

/-- Shuffle reply. -/
structure ShuffleReplyMsg where
  id : Nat
  candidates : List Candidate
  deriving Repr, DecidableEq

/-- The tagged union of the nine wire messages. -/
inductive Msg where
  | user : UserMessage → Msg
  | join : JoinMsg → Msg
  | joinReply : JoinReplyMsg → Msg
  | forwardJoin : ForwardJoinMsg → Msg
  | neighbor : NeighborMsg → Msg
  | neighborReply : NeighborReplyMsg → Msg
  | disconnect : DisconnectMsg → Msg
  | shuffle : ShuffleMsg → Msg
  | shuffleReply : ShuffleReplyMsg → Msg
  deriving Repr, DecidableEq

/-! ## Wire codec (codec/codec.go)

NewAgent registers the nine message types in the fixed order UserMessage,
Join, JoinReply, ForwardJoin, Neighbor, NeighborReply, Disconnect,
Shuffle, ShuffleReply, so the codec's monotonically assigned type tags are
0 through 8.  The protobuf serializer (proto.Marshal / proto.Unmarshal)
is an external library; it enters the embedding as an explicit
marshal / unmarshal parameter pair satisfying the serializer's round-trip
contract.  Bytes are Nat values below 256. -/

/-- The type tag assigned by the registration order in NewAgent. -/
def msgTag : Msg → Nat
  | .user _ => 0
  | .join _ => 1
  | .joinReply _ => 2
  | .forwardJoin _ => 3
  | .neighbor _ => 4
  | .neighborReply _ => 5
  | .disconnect _ => 6
  | .shuffle _ => 7
  | .shuffleReply _ => 8

/-- Little-endian bytes of a 32-bit value (binary.Write LittleEndian). -/
def le32 (n : Nat) : List Nat :=
  [n % 256, n / 256 % 256, n / 65536 % 256, n / 16777216 % 256]

/-- Little-endian 32-bit read (binary.Read LittleEndian). -/
def de32 (b0 b1 b2 b3 : Nat) : Nat :=
  b0 + 256 * b1 + 65536 * b2 + 16777216 * b3

/-- WriteMsg: magic 0xAB 0xCD, then the little-endian int32 length of
tag plus serialized payload, then the tag byte, then the payload.  The
int32 cast reduces the length modulo 2^32. -/
def WriteMsg (marshal : Msg → List Nat) (m : Msg) : List Nat :=
  0xab :: 0xcd ::
    (le32 (((marshal m).length + 1) % 4294967296) ++ (msgTag m :: marshal m))

/-- The error text of a failed magic check. -/
def badMagicErr : String := "magic number unmatch"

/-- ReadMsg reads a frame: it consumes and validates the two magic bytes,
reads the 32-bit length, reads exactly that many bytes, takes the first as
the tag, looks it up among the nine registered tags, and deserializes the
remainder.  The returned list is what remains unconsumed in the reader.
readFrame is the step after the length was read. -/
def readFrame (unmarshal : Nat → List Nat → Option Msg) (len : Nat)
    (rest2 : List Nat) : Except String Msg × List Nat :=
  if rest2.length < len then (Except.error "unexpected EOF", [])
  else
    match rest2.take len with
    | [] => (Except.error "Recovery from panic: index out of range",
        rest2.drop len)
    | tag :: payload =>
      if tag < 9 then
        match unmarshal tag payload with
        | some m => (Except.ok m, rest2.drop len)
        | none => (Except.error "unmarshal failed", rest2.drop len)
      else (Except.error "Message not registered", rest2.drop len)

/-- The body of ReadMsg after the magic check: read the 32-bit length,
then the frame. -/
def readAfterMagic (unmarshal : Nat → List Nat → Option Msg)
    (rest : List Nat) : Except String Msg × List Nat :=
  match rest with
  | l0 :: l1 :: l2 :: l3 :: rest2 =>
    readFrame unmarshal (de32 l0 l1 l2 l3) rest2
  | _ => (Except.error "unexpected EOF", [])

def ReadMsg (unmarshal : Nat → List Nat → Option Msg) (input : List Nat) :
    Except String Msg × List Nat :=
  match input with
  | b0 :: b1 :: rest =>
    if b0 = 0xab ∧ b1 = 0xcd then readAfterMagic unmarshal rest
    else (Except.error badMagicErr, rest)
  | _ => (Except.error "EOF", [])

theorem msgTag_lt_nine (m : Msg) : msgTag m < 9 := by
  cases m <;> simp [msgTag]

theorem de32_le32_comp (n : Nat) (h : n < 4294967296) :
    de32 (n % 256) (n / 256 % 256) (n / 65536 % 256) (n / 16777216 % 256)
      = n := by
  unfold de32
  omega

/-- C4: codec round-trip.  For any serializer satisfying the protobuf
round-trip contract at m (unmarshal at m's tag inverts marshal) and any
message whose serialized form fits the 32-bit length field, writing m and
reading the produced byte stream back yields m and leaves any trailing
bytes unconsumed; moreover the emitted frame is the two magic bytes
0xAB 0xCD, the little-endian 32-bit length counting the one-byte type tag
plus the serialized payload, the tag, then the payload. -/
theorem claim_C4_roundtrip (marshal : Msg → List Nat)
    (unmarshal : Nat → List Nat → Option Msg) (m : Msg) (extra : List Nat)
    (hrt : unmarshal (msgTag m) (marshal m) = some m)
    (hlen : (marshal m).length + 1 < 4294967296) :
    ReadMsg unmarshal (WriteMsg marshal m ++ extra) = (Except.ok m, extra) ∧
    WriteMsg marshal m =
      [0xab, 0xcd] ++ le32 ((marshal m).length + 1) ++ [msgTag m] ++
        marshal m := by
  have hmod : ((marshal m).length + 1) % 4294967296 = (marshal m).length + 1 :=
    Nat.mod_eq_of_lt hlen
  have hframe : WriteMsg marshal m =
      [0xab, 0xcd] ++ le32 ((marshal m).length + 1) ++ [msgTag m] ++
        marshal m := by
    rw [WriteMsg, hmod]
    simp
  refine ⟨?_, hframe⟩
  rw [hframe]
  have hshape : [0xab, 0xcd] ++ le32 ((marshal m).length + 1) ++ [msgTag m] ++
      marshal m ++ extra =
      0xab :: 0xcd ::
        (((marshal m).length + 1) % 256) ::
        (((marshal m).length + 1) / 256 % 256) ::
        (((marshal m).length + 1) / 65536 % 256) ::
        (((marshal m).length + 1) / 16777216 % 256) ::
        (msgTag m :: (marshal m ++ extra)) := by
    simp [le32]
  rw [hshape, ReadMsg]
  rw [if_pos ⟨rfl, rfl⟩]
  rw [readAfterMagic, readFrame]
  have hde : de32 (((marshal m).length + 1) % 256)
      (((marshal m).length + 1) / 256 % 256)
      (((marshal m).length + 1) / 65536 % 256)
      (((marshal m).length + 1) / 16777216 % 256) = (marshal m).length + 1 :=
    de32_le32_comp _ hlen
  simp only [hde]
  have hlen2 : ¬ (msgTag m :: (marshal m ++ extra)).length
      < (marshal m).length + 1 := by
    simp [List.length_append]
  rw [if_neg hlen2]
  have htake : (msgTag m :: (marshal m ++ extra)).take ((marshal m).length + 1)
      = msgTag m :: marshal m := by
    rw [List.take_succ_cons, List.take_left]
  have hdrop : (msgTag m :: (marshal m ++ extra)).drop ((marshal m).length + 1)
      = extra := by
    rw [List.drop_succ_cons, List.drop_left]
  rw [htake, hdrop]
  dsimp only
  rw [if_pos (msgTag_lt_nine m)]
  rw [hrt]

/-- A degenerate serializer used only to instantiate the round-trip
contract at one concrete message in the witness. -/
def constMarshal : Msg → List Nat := fun _ => [7]

/-- The matching degenerate deserializer. -/
def constUnmarshal : Nat → List Nat → Option Msg := fun tag b =>
  if tag = 6 ∧ b = [7] then some (Msg.disconnect ⟨7⟩) else none

/-- C4 witness: the round-trip theorem applied at a concrete Disconnect
message, serializer and trailing byte. -/
theorem claim_C4_roundtrip_witness :
    ReadMsg constUnmarshal
        (WriteMsg constMarshal (Msg.disconnect ⟨7⟩) ++ [9]) =
      (Except.ok (Msg.disconnect ⟨7⟩), [9]) ∧
    WriteMsg constMarshal (Msg.disconnect ⟨7⟩) =
      [0xab, 0xcd] ++ le32 ((constMarshal (Msg.disconnect ⟨7⟩)).length + 1) ++
        [msgTag (Msg.disconnect ⟨7⟩)] ++ constMarshal (Msg.disconnect ⟨7⟩) :=
  claim_C4_roundtrip constMarshal constUnmarshal (Msg.disconnect ⟨7⟩) [9]
    (by decide) (by decide)

/-- C9: a corrupted magic prefix makes ReadMsg fail, and exactly the two
magic bytes are consumed: the length, tag and payload bytes all remain in
the reader. -/
theorem claim_C9_badMagic (unmarshal : Nat → List Nat → Option Msg)
    (b0 b1 : Nat) (rest : List Nat) (h : ¬ (b0 = 0xab ∧ b1 = 0xcd)) :
    ReadMsg unmarshal (b0 :: b1 :: rest) = (Except.error badMagicErr, rest) := by
  rw [ReadMsg, if_neg h]

/-- C9 witness: the bad-magic theorem applied at a concrete corrupted
stream. -/
theorem claim_C9_badMagic_witness :
    ReadMsg constUnmarshal (0 :: 1 :: [2, 3, 4]) =
      (Except.error badMagicErr, [2, 3, 4]) :=
  claim_C9_badMagic constUnmarshal 0 1 [2, 3, 4] (by decide)

/-! ## Agent state and view maintenance (agent/agent.go)

The agent's two views are ArrayMaps from node id to node; the message
buffer maps the 20-byte SHA-1 payload digest to a purge deadline in
nanoseconds.  The digest function enters the embedding as an explicit
parameter (the theorems hold for every digest function, in particular
SHA-1).  A node's transport handle is connection state, not data, and
does not appear in the embedding; sends on it are network effects.
Random draws (rand.Intn) are threaded as a list of naturals, one entry
per call, reduced modulo the view length at the call site, so that
quantifying over the list covers every possible sequence of draws. -/

/-- A peer descriptor (node/node.go): identifier and address. -/
structure Node where
  id : Nat
  addr : String
  deriving Repr, DecidableEq

/-- The configuration fields used by the agent core (config/config.go). -/
structure Config where
  AViewMinSize : Nat
  AViewMaxSize : Nat
  PViewSize : Nat
  Ka : Nat
  Kp : Nat
  ARWL : Nat
  PRWL : Nat
  SRWL : Nat
  MLife : Nat
  ShuffleDuration : Nat
  HealDuration : Nat
  PurgeDuration : Nat
  deriving Repr, DecidableEq

/-- The default configuration (the flag defaults of config.go). -/
def cfgDefault : Config := ⟨3, 5, 30, 1, 3, 5, 3, 5, 5000, 5, 1, 5000⟩

/-- The view-relevant state of one agent: active view, passive view and
the duplicate-suppression buffer msgBuffer.  The failed-message buffer
only stores messages for resending and never feeds back into the views. -/
structure AgentState where
  aView : ArrayMap Nat Node
  pView : ArrayMap Nat Node
  msgBuffer : ArrayMap (List Nat) Int
  deriving Repr, DecidableEq

/-- The state of a freshly created agent: both views and the buffer
empty. -/
def agentInit : AgentState := ⟨ArrayMap.empty, ArrayMap.empty, ArrayMap.empty⟩

/-- chooseRandomNode: draw a uniform index; if the node there carries the
excluded id, fall back to the next index cyclically, or nil when the view
has a single entry; nil on an empty view. -/
def chooseRandomNode (view : ArrayMap Nat Node) (excludeId : Nat) (r : Nat) :
    Option Node :=
  if h : view.Len = 0 then none
  else
    let nd := view.GetValueAt (r % view.Len)
      (Nat.mod_lt r (Nat.pos_of_ne_zero h))
    if nd.id = excludeId then
      if view.Len = 1 then none
      else some (view.GetValueAt ((r % view.Len + 1) % view.Len)
        (Nat.mod_lt _ (Nat.pos_of_ne_zero h)))
    else some nd

/-- chooseRandomCandidates: up to n nodes read cyclically from a random
start index, converted to wire candidates. -/
def chooseRandomCandidates (view : ArrayMap Nat Node) (n : Nat) (r : Nat) :
    List Candidate :=
  if h : view.Len = 0 then []
  else
    (List.range (min n view.Len)).map fun i =>
      let nd := view.GetValueAt ((r % view.Len + i) % view.Len)
        (Nat.mod_lt _ (Nat.pos_of_ne_zero h))
      ⟨nd.id, nd.addr⟩

/-- The passive-view eviction loop of addNodePassiveView: while the
passive view is at or above capacity, remove a random victim.  Fuel
bounds the iteration count; it is always sufficient when the loop makes
progress, and running out (like dereferencing a nil choice) models a
non-returning execution. -/
def evictPassiveLoop (psize : Nat) :
    Nat → ArrayMap Nat Node → List Nat →
      Option (ArrayMap Nat Node × List Nat)
  | 0, _, _ => none
  | fuel + 1, pv, ds =>
    if psize ≤ pv.Len then
      (chooseRandomNode pv 0 (ds.headD 0)).bind fun n =>
        evictPassiveLoop psize fuel (pv.Remove n.id).1 ds.tail
    else some (pv, ds)

/-- addNodePassiveView: skip the agent's own id and ids already in either
view; evict random victims while the passive view is full; insert. -/
def addNodePassiveView (cfg : Config) (selfId : Nat) (st : AgentState)
    (nd : Node) (ds : List Nat) : Option (AgentState × List Nat) :=
  if nd.id = selfId ∨ st.aView.Has nd.id = true ∨ st.pView.Has nd.id = true then
    some (st, ds)
  else
    (evictPassiveLoop cfg.PViewSize (st.pView.Len + 1) st.pView ds).map
      fun pr => ({ st with pView := (pr.1.Add nd.id nd).1 }, pr.2)

/-- The active-view eviction loop of addNodeActiveView: while the active
view is at or above capacity, pick a random node, remove it from the
active view, send it Disconnect (a network effect) and demote it to the
passive view. -/
def evictActiveLoop (cfg : Config) (selfId : Nat) :
    Nat → AgentState → List Nat → Option (AgentState × List Nat)
  | 0, _, _ => none
  | fuel + 1, st, ds =>
    if cfg.AViewMaxSize ≤ st.aView.Len then
      (chooseRandomNode st.aView 0 (ds.headD 0)).bind fun n =>
        (addNodePassiveView cfg selfId
            { st with aView := (st.aView.Remove n.id).1 } n ds.tail).bind
          fun pr => evictActiveLoop cfg selfId fuel pr.1 pr.2
    else some (st, ds)

/-- addNodeActiveView: when the id is not yet in the active view, make
space by demoting random nodes, then insert; an existing id has its
stored node replaced in place (and its old transport closed). -/
def addNodeActiveView (cfg : Config) (selfId : Nat) (st : AgentState)
    (nd : Node) (ds : List Nat) : Option (AgentState × List Nat) :=
  if st.aView.Has nd.id = true then
    some ({ st with aView := (st.aView.Add nd.id nd).1 }, ds)
  else
    (evictActiveLoop cfg selfId (st.aView.Len + 1) st ds).map
      fun pr => ({ pr.1 with aView := (pr.1.aView.Add nd.id nd).1 }, pr.2)

/-! ## Protocol handlers -/

/-- The outcome of a handler that replies with an acceptance decision:
the replied decision and the state after the handler returns. -/
structure AcceptResult where
  accept : Bool
  state : AgentState
  deriving Repr, DecidableEq

/-- handleJoin: accept iff the newcomer id differs from the agent's own
and is not already in the active view; reply with the decision
(network effect); on acceptance add the newcomer to the active view and
send ForwardJoin to the other active nodes (network effects). -/
def handleJoin (cfg : Config) (selfId : Nat) (st : AgentState)
    (msg : JoinMsg) (ds : List Nat) : Option AcceptResult :=
  let newNode : Node := ⟨msg.id, msg.addr⟩
  if msg.id ≠ selfId ∧ st.aView.Has msg.id = false then
    (addNodeActiveView cfg selfId st newNode ds).map fun pr => ⟨true, pr.1⟩
  else some ⟨false, st⟩

/-- handleNeighbor: accept iff the newcomer id differs from the agent's
own, is not already in the active view, and the priority is High or the
active view has a free slot; reply with the decision; on acceptance add
to the active view. -/
def handleNeighbor (cfg : Config) (selfId : Nat) (st : AgentState)
    (msg : NeighborMsg) (ds : List Nat) : Option AcceptResult :=
  let newNode : Node := ⟨msg.id, msg.addr⟩
  if msg.id ≠ selfId ∧ st.aView.Has msg.id = false ∧
      (msg.priority = Priority.high ∨ st.aView.Len < cfg.AViewMaxSize) then
    (addNodeActiveView cfg selfId st newNode ds).map fun pr => ⟨true, pr.1⟩
  else some ⟨false, st⟩

/-- handleForwardJoin: at ttl zero or with at most one active node, dial
the newcomer and send it Neighbor(High) (a remote request whose reply is
discarded; the local views are unchanged).  Otherwise add the newcomer to
the passive view when ttl equals PRWL, and forward with ttl minus one to
a random active node other than the message's sender (a network
effect). -/
def handleForwardJoin (cfg : Config) (selfId : Nat) (st : AgentState)
    (msg : ForwardJoinMsg) (ds : List Nat) : Option AgentState :=
  let newNode : Node := ⟨msg.sourceId, msg.sourceAddr⟩
  if msg.ttl = 0 ∨ st.aView.Len ≤ 1 then some st
  else
    (if msg.ttl = cfg.PRWL
        then addNodePassiveView cfg selfId st newNode ds
        else some (st, ds)).map (·.1)

/-- What handleShuffle sends: either the Shuffle forwarded to an active
node (nil meaning the chooser returned no node and the send task
crashes), or a ShuffleReply carrying the reply candidates. -/
inductive ShuffleEffect where
  | forwarded : Option Node → ShuffleMsg → ShuffleEffect
  | replied : List Candidate → ShuffleEffect
  deriving Repr, DecidableEq

/-- The space-making loop of handleShuffle's candidate integration:
while the passive view is full, first evict the ids just sent back in
the reply, then random victims.  The index i into the reply list persists
across candidates. -/
def makeSpaceLoop (psize : Nat) (reply : List Candidate) :
    Nat → Nat → ArrayMap Nat Node → List Nat →
      Option (ArrayMap Nat Node × Nat × List Nat)
  | 0, _, _, _ => none
  | fuel + 1, i, pv, ds =>
    if psize ≤ pv.Len then
      if h : i < reply.length then
        makeSpaceLoop psize reply fuel (i + 1)
          (pv.Remove (reply.get ⟨i, h⟩).id).1 ds
      else
        (chooseRandomNode pv 0 (ds.headD 0)).bind fun n =>
          makeSpaceLoop psize reply fuel i (pv.Remove n.id).1 ds.tail
    else some (pv, i, ds)

/-- The candidate-integration loop of handleShuffle: skip candidates
whose id is the agent's own or already present in either view; make
space; insert. -/
def integrateLoop (cfg : Config) (selfId : Nat) (aView : ArrayMap Nat Node)
    (reply : List Candidate) :
    List Candidate → Nat → ArrayMap Nat Node → List Nat →
      Option (ArrayMap Nat Node)
  | [], _, pv, _ => some pv
  | c :: cs, i, pv, ds =>
    if c.id = selfId ∨ aView.Has c.id = true ∨ pv.Has c.id = true then
      integrateLoop cfg selfId aView reply cs i pv ds
    else
      (makeSpaceLoop cfg.PViewSize reply (pv.Len + reply.length + 1)
          i pv ds).bind fun pr =>
        integrateLoop cfg selfId aView reply cs pr.2.1
          ((pr.1.Add c.id ⟨c.id, c.addr⟩).1) pr.2.2

/-- handleShuffle: with positive ttl and more than one active node,
forward (with the agent's id and ttl minus one) to a random active node
other than the message's sender and leave the views unchanged.
Otherwise sample as many passive nodes as the message carries
candidates, reply with them (a network effect on a fresh connection) and
integrate the received candidates into the passive view. -/
def handleShuffle (cfg : Config) (selfId : Nat) (st : AgentState)
    (msg : ShuffleMsg) (ds : List Nat) :
    Option (AgentState × ShuffleEffect) :=
  if 0 < msg.ttl ∧ 1 < st.aView.Len then
    some (st, ShuffleEffect.forwarded
      (chooseRandomNode st.aView msg.id (ds.headD 0))
      { msg with id := selfId, ttl := msg.ttl - 1 })
  else
    (integrateLoop cfg selfId st.aView
        (chooseRandomCandidates st.pView msg.candidates.length (ds.headD 0))
        msg.candidates 0 st.pView ds.tail).map
      fun pv2 => ({ st with pView := pv2 }, ShuffleEffect.replied
        (chooseRandomCandidates st.pView msg.candidates.length (ds.headD 0)))

/-- The candidate fold of handleShuffleReply. -/
def integrateReplyLoop (cfg : Config) (selfId : Nat) :
    List Candidate → AgentState → List Nat →
      Option (AgentState × List Nat)
  | [], st, ds => some (st, ds)
  | c :: cs, st, ds =>
    (addNodePassiveView cfg selfId st ⟨c.id, c.addr⟩ ds).bind fun pr =>
      integrateReplyLoop cfg selfId cs pr.1 pr.2

/-- handleShuffleReply: add every received candidate to the passive view
under the usual skip and bounded-size rules. -/
def handleShuffleReply (cfg : Config) (selfId : Nat) (st : AgentState)
    (msg : ShuffleReplyMsg) (ds : List Nat) : Option AgentState :=
  (integrateReplyLoop cfg selfId msg.candidates st ds).map (·.1)

/-- The observable outcome of handleUserMessage: the state after the
handler returns, the payload passed to the user handler (none when
nothing is delivered) and the nodes the message is forwarded to. -/
structure UserMsgResult where
  state : AgentState
  delivered : Option (List Nat)
  forwards : List Node
  deriving Repr, DecidableEq

/-- handleUserMessage: discard when stale (now at or past
ts + MLife milliseconds) or when the payload digest is recorded with an
unexpired purge deadline; otherwise drop an expired record, record the
digest with deadline now + PurgeDuration milliseconds (the buffer's
Append is ArrayMap insertion), deliver the payload to the user handler
once, and forward the message to every active node other than the one
the message arrived from. -/
def handleUserMessage (hash : List Nat → List Nat) (cfg : Config)
    (now : Int) (st : AgentState) (sender : Node) (msg : UserMessage) :
    UserMsgResult :=
  if now ≥ msg.ts + 1000000 * (cfg.MLife : Int) then ⟨st, none, []⟩
  else
    match st.msgBuffer.GetValueOf (hash msg.payload) with
    | some purgeDeadline =>
      if purgeDeadline ≥ now then ⟨st, none, []⟩
      else
        ⟨{ st with msgBuffer :=
            (((st.msgBuffer.Remove (hash msg.payload)).1).Add
              (hash msg.payload)
              (now + 1000000 * (cfg.PurgeDuration : Int))).1 },
          some msg.payload,
          st.aView.Values.filter (fun nd => decide (nd.id ≠ sender.id))⟩
    | none =>
      ⟨{ st with msgBuffer :=
          (st.msgBuffer.Add (hash msg.payload)
            (now + 1000000 * (cfg.PurgeDuration : Int))).1 },
        some msg.payload,
        st.aView.Values.filter (fun nd => decide (nd.id ≠ sender.id))⟩

/-- The repair loop of replaceActiveNode: pick a random passive node;
none breaks out.  Each oracle entry resolves one iteration's external
outcomes: whether the dial succeeded, and the Neighbor request's reply
(none meaning a transport or protocol error).  A dial failure drops the
candidate from the passive view; an accepted Neighbor promotes it to the
active view and exits. -/
def repairLoop (cfg : Config) (selfId : Nat) :
    List (Bool × Option Bool) → AgentState → List Nat →
      Option (AgentState × List Nat)
  | [], st, ds =>
    match chooseRandomNode st.pView 0 (ds.headD 0) with
    | none => some (st, ds.tail)
    | some _ => none
  | (connOk, neighborAccepted) :: orest, st, ds =>
    match chooseRandomNode st.pView 0 (ds.headD 0) with
    | none => some (st, ds.tail)
    | some cand =>
      if connOk then
        match neighborAccepted with
        | none => repairLoop cfg selfId orest st ds.tail
        | some false => repairLoop cfg selfId orest st ds.tail
        | some true =>
          addNodeActiveView cfg selfId
            { st with pView := (st.pView.Remove cand.id).1 } cand ds.tail
      else
        repairLoop cfg selfId orest
          { st with pView := (st.pView.Remove cand.id).1 } ds.tail

/-- replaceActiveNode: invoked when a reader task errors or a Disconnect
arrives.  Remove the dead node from the active view (return if it was
already gone), promote a passive node via the repair loop, then demote
the dead node to the passive view and resend buffered messages (sends
are network effects). -/
def replaceActiveNode (cfg : Config) (selfId : Nat) (st : AgentState)
    (nd : Node) (oracle : List (Bool × Option Bool)) (ds : List Nat) :
    Option AgentState :=
  if st.aView.Has nd.id = true then
    (repairLoop cfg selfId oracle
        { st with aView := (st.aView.Remove nd.id).1 } ds).bind fun pr =>
      (addNodePassiveView cfg selfId pr.1 nd pr.2).map (·.1)
  else some st

/-! ## Bounds preservation (claim C2) -/

namespace ArrayMap

theorem Len_Remove_le {a : ArrayMap K V} {k : K} [DecidableEq K] :
    (a.Remove k).1.Len ≤ a.Len := by
  by_cases h : a.Has k = true
  · rw [Len_Remove_of_has h]; omega
  · rw [Len_Remove_of_not_has h]

theorem Has_Add_self {K V : Type} [DecidableEq K]
    {a : ArrayMap K V} {k : K} {v : V} :
    (a.Add k v).1.Has k = true := by
  rw [Has_iff_exists_mem]
  refine ⟨v, ?_⟩
  unfold Add
  cases hf : findIndex a.entries k with
  | none => simp
  | some p =>
    obtain ⟨hp, hkey⟩ := findIndex_spec hf
    simp only
    rw [List.mem_iff_get]
    have hp2 : p < (a.entries.set p (k, v)).length := by
      simpa [List.length_set] using hp
    refine ⟨⟨p, hp2⟩, ?_⟩
    simp only [List.get_eq_getElem]
    simp only [List.getElem_set_self]

theorem Has_of_Has_Add {K V : Type} [DecidableEq K]
    {a : ArrayMap K V} {k j : K} {v : V}
    (h : (a.Add k v).1.Has j = true) : j = k ∨ a.Has j = true := by
  rw [Has_iff_exists_mem] at h
  obtain ⟨w, hw⟩ := h
  unfold Add at hw
  cases hf : findIndex a.entries k with
  | none =>
    rw [hf] at hw
    simp only at hw
    rw [List.mem_append] at hw
    rcases hw with hw | hw
    · right; exact Has_iff_exists_mem.2 ⟨w, hw⟩
    · left; simp at hw; exact hw.1
  | some p =>
    rw [hf] at hw
    simp only at hw
    rcases List.mem_or_eq_of_mem_set hw with hw | hw
    · right; exact Has_iff_exists_mem.2 ⟨w, hw⟩
    · left; exact congrArg Prod.fst hw

theorem Has_of_Has_Remove {K V : Type} [DecidableEq K]
    {a : ArrayMap K V} {k j : K}
    (h : (a.Remove k).1.Has j = true) : a.Has j = true := by
  rw [Has_iff_exists_mem] at h ⊢
  obtain ⟨w, hw⟩ := h
  exact ⟨w, mem_entries_of_mem_Remove hw⟩

end ArrayMap

theorem evictPassiveLoop_spec {psize : Nat} {fuel : Nat}
    {pv pv2 : ArrayMap Nat Node} {ds ds2 : List Nat}
    (h : evictPassiveLoop psize fuel pv ds = some (pv2, ds2)) :
    pv2.Len < psize ∧ (∀ k, ¬ pv.Has k = true → ¬ pv2.Has k = true) := by
  induction fuel generalizing pv ds with
  | zero => simp [evictPassiveLoop] at h
  | succ n ih =>
    rw [evictPassiveLoop] at h
    by_cases hc : psize ≤ pv.Len
    · rw [if_pos hc] at h
      cases hch : chooseRandomNode pv 0 (ds.headD 0) with
      | none => rw [hch] at h; exact absurd h (by simp)
      | some nd =>
        rw [hch] at h
        obtain ⟨h1, h2⟩ := ih h
        refine ⟨h1, fun k hk => h2 k ?_⟩
        intro h3
        exact hk (ArrayMap.Has_of_Has_Remove h3)
    · rw [if_neg hc] at h
      injection h with h
      rw [Prod.mk.injEq] at h
      obtain ⟨h1, h2⟩ := h
      subst h1
      exact ⟨by omega, fun k hk => hk⟩

theorem addNodePassiveView_spec {cfg : Config} {selfId : Nat}
    {st st2 : AgentState} {nd : Node} {ds ds2 : List Nat}
    (h : addNodePassiveView cfg selfId st nd ds = some (st2, ds2)) :
    st2.aView = st.aView ∧ st2.msgBuffer = st.msgBuffer ∧
      (st.pView.Len ≤ cfg.PViewSize → st2.pView.Len ≤ cfg.PViewSize) := by
  unfold addNodePassiveView at h
  by_cases hc : nd.id = selfId ∨ st.aView.Has nd.id = true ∨
      st.pView.Has nd.id = true
  · rw [if_pos hc] at h
    injection h with h
    rw [Prod.mk.injEq] at h
    obtain ⟨h1, _⟩ := h
    subst h1
    exact ⟨rfl, rfl, fun hb => hb⟩
  · rw [if_neg hc] at h
    cases he : evictPassiveLoop cfg.PViewSize (st.pView.Len + 1) st.pView ds with
    | none => rw [he] at h; exact absurd h (by simp)
    | some pr =>
      rw [he] at h
      injection h with h
      rw [Prod.mk.injEq] at h
      obtain ⟨h1, _⟩ := h
      subst h1
      push_neg at hc
      obtain ⟨hlt, hpres⟩ := evictPassiveLoop_spec he
      refine ⟨rfl, rfl, fun _ => ?_⟩
      have hnh : ¬ pr.1.Has nd.id = true :=
        hpres nd.id (by simpa using hc.2.2)
      simp only
      rw [ArrayMap.Len_Add_of_not_has nd hnh]
      omega

theorem evictActiveLoop_spec {cfg : Config} {selfId : Nat} {fuel : Nat}
    {st st2 : AgentState} {ds ds2 : List Nat}
    (h : evictActiveLoop cfg selfId fuel st ds = some (st2, ds2)) :
    st2.aView.Len < cfg.AViewMaxSize ∧
    (st.pView.Len ≤ cfg.PViewSize → st2.pView.Len ≤ cfg.PViewSize) ∧
    st2.msgBuffer = st.msgBuffer ∧
    (∀ k, ¬ st.aView.Has k = true → ¬ st2.aView.Has k = true) := by
  induction fuel generalizing st ds with
  | zero => simp [evictActiveLoop] at h
  | succ n ih =>
    rw [evictActiveLoop] at h
    by_cases hc : cfg.AViewMaxSize ≤ st.aView.Len
    · rw [if_pos hc] at h
      cases hch : chooseRandomNode st.aView 0 (ds.headD 0) with
      | none => rw [hch] at h; exact absurd h (by simp)
      | some nd =>
        rw [hch] at h
        simp only [Option.some_bind] at h
        cases hp : addNodePassiveView cfg selfId
            { st with aView := (st.aView.Remove nd.id).1 } nd ds.tail with
        | none => rw [hp] at h; exact absurd h (by simp)
        | some pr =>
          rw [hp] at h
          simp only [Option.some_bind] at h
          obtain ⟨ha, hm, hpb⟩ := addNodePassiveView_spec hp
          obtain ⟨i1, i2, i3, i4⟩ := ih h
          refine ⟨i1, fun hb => i2 (hpb hb), i3.trans hm, fun k hk => ?_⟩
          apply i4
          rw [ha]
          intro h3
          exact hk (ArrayMap.Has_of_Has_Remove h3)
    · rw [if_neg hc] at h
      injection h with h
      rw [Prod.mk.injEq] at h
      obtain ⟨h1, _⟩ := h
      subst h1
      exact ⟨by omega, fun hb => hb, rfl, fun k hk => hk⟩

theorem addNodeActiveView_spec {cfg : Config} {selfId : Nat}
    {st st2 : AgentState} {nd : Node} {ds ds2 : List Nat}
    (h : addNodeActiveView cfg selfId st nd ds = some (st2, ds2)) :
    (st.aView.Len ≤ cfg.AViewMaxSize → st2.aView.Len ≤ cfg.AViewMaxSize) ∧
    (st.pView.Len ≤ cfg.PViewSize → st2.pView.Len ≤ cfg.PViewSize) ∧
    st2.msgBuffer = st.msgBuffer ∧ st2.aView.Has nd.id = true := by
  unfold addNodeActiveView at h
  by_cases hc : st.aView.Has nd.id = true
  · rw [if_pos hc] at h
    injection h with h
    rw [Prod.mk.injEq] at h
    obtain ⟨h1, _⟩ := h
    subst h1
    refine ⟨fun hb => ?_, fun hb => hb, rfl, ArrayMap.Has_Add_self⟩
    simp only
    rw [ArrayMap.Len_Add_of_has nd hc]
    exact hb
  · rw [if_neg hc] at h
    cases he : evictActiveLoop cfg selfId (st.aView.Len + 1) st ds with
    | none => rw [he] at h; exact absurd h (by simp)
    | some pr =>
      rw [he] at h
      injection h with h
      rw [Prod.mk.injEq] at h
      obtain ⟨h1, _⟩ := h
      subst h1
      obtain ⟨e1, e2, e3, e4⟩ := evictActiveLoop_spec he
      refine ⟨fun _ => ?_, e2, e3, ArrayMap.Has_Add_self⟩
      simp only
      rw [ArrayMap.Len_Add_of_not_has nd (e4 nd.id hc)]
      omega

theorem repairLoop_spec {cfg : Config} {selfId : Nat}
    {oracle : List (Bool × Option Bool)} {st st2 : AgentState}
    {ds ds2 : List Nat}
    (h : repairLoop cfg selfId oracle st ds = some (st2, ds2)) :
    (st.aView.Len ≤ cfg.AViewMaxSize → st2.aView.Len ≤ cfg.AViewMaxSize) ∧
    (st.pView.Len ≤ cfg.PViewSize → st2.pView.Len ≤ cfg.PViewSize) ∧
    st2.msgBuffer = st.msgBuffer := by
  induction oracle generalizing st ds with
  | nil =>
    rw [repairLoop] at h
    cases hch : chooseRandomNode st.pView 0 (ds.headD 0) with
    | none =>
      rw [hch] at h
      injection h with h
      rw [Prod.mk.injEq] at h
      obtain ⟨h1, _⟩ := h
      subst h1
      exact ⟨fun hb => hb, fun hb => hb, rfl⟩
    | some nd => rw [hch] at h; exact absurd h (by simp)
  | cons step orest ih =>
    obtain ⟨connOk, nres⟩ := step
    rw [repairLoop] at h
    cases hch : chooseRandomNode st.pView 0 (ds.headD 0) with
    | none =>
      rw [hch] at h
      injection h with h
      rw [Prod.mk.injEq] at h
      obtain ⟨h1, _⟩ := h
      subst h1
      exact ⟨fun hb => hb, fun hb => hb, rfl⟩
    | some cand =>
      rw [hch] at h
      dsimp only at h
      by_cases hconn : connOk
      · rw [if_pos hconn] at h
        cases nres with
        | none => exact ih h
        | some acc =>
          cases acc with
          | false => exact ih h
          | true =>
            obtain ⟨a1, a2, a3, _⟩ := addNodeActiveView_spec h
            refine ⟨a1, fun hb => a2 ?_, a3⟩
            simp only
            calc (st.pView.Remove cand.id).1.Len ≤ st.pView.Len :=
                  ArrayMap.Len_Remove_le
              _ ≤ cfg.PViewSize := hb
      · rw [if_neg hconn] at h
        obtain ⟨i1, i2, i3⟩ := ih h
        refine ⟨i1, fun hb => i2 ?_, i3⟩
        simp only
        calc (st.pView.Remove cand.id).1.Len ≤ st.pView.Len :=
              ArrayMap.Len_Remove_le
          _ ≤ cfg.PViewSize := hb

theorem replaceActiveNode_spec {cfg : Config} {selfId : Nat}
    {st st2 : AgentState} {nd : Node}
    {oracle : List (Bool × Option Bool)} {ds : List Nat}
    (h : replaceActiveNode cfg selfId st nd oracle ds = some st2) :
    (st.aView.Len ≤ cfg.AViewMaxSize → st2.aView.Len ≤ cfg.AViewMaxSize) ∧
    (st.pView.Len ≤ cfg.PViewSize → st2.pView.Len ≤ cfg.PViewSize) := by
  unfold replaceActiveNode at h
  by_cases hc : st.aView.Has nd.id = true
  · rw [if_pos hc] at h
    cases hr : repairLoop cfg selfId oracle
        { st with aView := (st.aView.Remove nd.id).1 } ds with
    | none => rw [hr] at h; exact absurd h (by simp)
    | some pr =>
      rw [hr] at h
      simp only [Option.some_bind] at h
      obtain ⟨r1, r2, _⟩ := repairLoop_spec hr
      cases hp : addNodePassiveView cfg selfId pr.1 nd pr.2 with
      | none => rw [hp] at h; exact absurd h (by simp)
      | some pr2 =>
        rw [hp] at h
        injection h with h
        subst h
        obtain ⟨p1, _, p3⟩ := addNodePassiveView_spec hp
        constructor
        · intro hb
          rw [p1]
          apply r1
          simp only
          calc (st.aView.Remove nd.id).1.Len ≤ st.aView.Len :=
                ArrayMap.Len_Remove_le
            _ ≤ cfg.AViewMaxSize := hb
        · intro hb
          exact p3 (r2 hb)
  · rw [if_neg hc] at h
    injection h with h
    subst h
    exact ⟨fun hb => hb, fun hb => hb⟩

/-- Both view bounds of the spec: the active view within AViewMaxSize,
the passive view within PViewSize. -/
def boundsOK (cfg : Config) (st : AgentState) : Prop :=
  st.aView.Len ≤ cfg.AViewMaxSize ∧ st.pView.Len ≤ cfg.PViewSize

theorem handleJoin_bounds {cfg : Config} {selfId : Nat}
    {st : AgentState} {msg : JoinMsg} {ds : List Nat} {res : AcceptResult}
    (h : handleJoin cfg selfId st msg ds = some res)
    (hb : boundsOK cfg st) : boundsOK cfg res.state := by
  unfold handleJoin at h
  dsimp only at h
  split at h
  · cases ha : addNodeActiveView cfg selfId st ⟨msg.id, msg.addr⟩ ds with
    | none => rw [ha] at h; exact absurd h (by simp)
    | some pr =>
      rw [ha] at h
      simp only [Option.map_some'] at h
      injection h with h
      subst h
      obtain ⟨a1, a2, _, _⟩ := addNodeActiveView_spec ha
      exact ⟨a1 hb.1, a2 hb.2⟩
  · injection h with h
    subst h
    exact hb

theorem handleNeighbor_bounds {cfg : Config} {selfId : Nat}
    {st : AgentState} {msg : NeighborMsg} {ds : List Nat} {res : AcceptResult}
    (h : handleNeighbor cfg selfId st msg ds = some res)
    (hb : boundsOK cfg st) : boundsOK cfg res.state := by
  unfold handleNeighbor at h
  dsimp only at h
  split at h
  · cases ha : addNodeActiveView cfg selfId st ⟨msg.id, msg.addr⟩ ds with
    | none => rw [ha] at h; exact absurd h (by simp)
    | some pr =>
      rw [ha] at h
      simp only [Option.map_some'] at h
      injection h with h
      subst h
      obtain ⟨a1, a2, _, _⟩ := addNodeActiveView_spec ha
      exact ⟨a1 hb.1, a2 hb.2⟩
  · injection h with h
    subst h
    exact hb

theorem handleForwardJoin_bounds {cfg : Config} {selfId : Nat}
    {st st2 : AgentState} {msg : ForwardJoinMsg} {ds : List Nat}
    (h : handleForwardJoin cfg selfId st msg ds = some st2)
    (hb : boundsOK cfg st) : boundsOK cfg st2 := by
  unfold handleForwardJoin at h
  dsimp only at h
  split at h
  · injection h with h
    subst h
    exact hb
  · split at h
    · cases hp : addNodePassiveView cfg selfId st
          ⟨msg.sourceId, msg.sourceAddr⟩ ds with
      | none => rw [hp] at h; exact absurd h (by simp)
      | some pr =>
        rw [hp] at h
        simp only [Option.map_some'] at h
        injection h with h
        subst h
        obtain ⟨p1, _, p3⟩ := addNodePassiveView_spec hp
        exact ⟨by rw [p1]; exact hb.1, p3 hb.2⟩
    · simp only [Option.map_some'] at h
      injection h with h
      subst h
      exact hb

theorem makeSpaceLoop_spec {psize : Nat} {reply : List Candidate}
    {fuel i : Nat} {pv : ArrayMap Nat Node} {ds : List Nat}
    {out : ArrayMap Nat Node × Nat × List Nat}
    (h : makeSpaceLoop psize reply fuel i pv ds = some out) :
    out.1.Len < psize ∧
      (∀ k, out.1.Has k = true → pv.Has k = true) := by
  induction fuel generalizing i pv ds with
  | zero => simp [makeSpaceLoop] at h
  | succ n ih =>
    rw [makeSpaceLoop] at h
    by_cases hc : psize ≤ pv.Len
    · rw [if_pos hc] at h
      split at h
      · obtain ⟨i1, i2⟩ := ih h
        exact ⟨i1, fun k hk => ArrayMap.Has_of_Has_Remove (i2 k hk)⟩
      · cases hch : chooseRandomNode pv 0 (ds.headD 0) with
        | none => rw [hch] at h; exact absurd h (by simp)
        | some nd =>
          rw [hch] at h
          simp only [Option.some_bind] at h
          obtain ⟨i1, i2⟩ := ih h
          exact ⟨i1, fun k hk => ArrayMap.Has_of_Has_Remove (i2 k hk)⟩
    · rw [if_neg hc] at h
      injection h with h
      subst h
      refine ⟨?_, fun k hk => hk⟩
      simp only
      omega

theorem integrateLoop_spec {cfg : Config} {selfId : Nat}
    {aView : ArrayMap Nat Node} {reply cs : List Candidate} {i : Nat}
    {pv pv2 : ArrayMap Nat Node} {ds : List Nat}
    (h : integrateLoop cfg selfId aView reply cs i pv ds = some pv2)
    (hb : pv.Len ≤ cfg.PViewSize) :
    pv2.Len ≤ cfg.PViewSize ∧
      (∀ k, pv2.Has k = true → pv.Has k = true ∨
        ∃ c ∈ cs, c.id = k ∧ k ≠ selfId ∧ aView.Has k = false) := by
  induction cs generalizing i pv ds with
  | nil =>
    rw [integrateLoop] at h
    injection h with h
    subst h
    exact ⟨hb, fun k hk => Or.inl hk⟩
  | cons c cs ih =>
    rw [integrateLoop] at h
    split at h
    · obtain ⟨i1, i2⟩ := ih h hb
      refine ⟨i1, fun k hk => ?_⟩
      rcases i2 k hk with hk2 | ⟨c2, hc2, hrest⟩
      · exact Or.inl hk2
      · exact Or.inr ⟨c2, List.mem_cons_of_mem _ hc2, hrest⟩
    · rename_i hskip
      push_neg at hskip
      obtain ⟨hs1, hs2, hs3⟩ := hskip
      cases hm : makeSpaceLoop cfg.PViewSize reply (pv.Len + reply.length + 1)
          i pv ds with
      | none => rw [hm] at h; exact absurd h (by simp)
      | some out =>
        rw [hm] at h
        simp only [Option.some_bind] at h
        obtain ⟨m1, m2⟩ := makeSpaceLoop_spec hm
        have hlen : ((out.1.Add c.id ⟨c.id, c.addr⟩).1).Len ≤ cfg.PViewSize := by
          by_cases hhas : out.1.Has c.id = true
          · rw [ArrayMap.Len_Add_of_has _ hhas]; omega
          · rw [ArrayMap.Len_Add_of_not_has _ hhas]; omega
        obtain ⟨i1, i2⟩ := ih h hlen
        refine ⟨i1, fun k hk => ?_⟩
        rcases i2 k hk with hk2 | ⟨c2, hc2, hrest⟩
        · rcases ArrayMap.Has_of_Has_Add hk2 with rfl | hk3
          · refine Or.inr ⟨c, List.mem_cons_self _ _, rfl, hs1, ?_⟩
            cases hae : aView.Has c.id
            · rfl
            · exact absurd hae hs2
          · exact Or.inl (m2 k hk3)
        · exact Or.inr ⟨c2, List.mem_cons_of_mem _ hc2, hrest⟩

theorem handleShuffle_bounds {cfg : Config} {selfId : Nat}
    {st : AgentState} {msg : ShuffleMsg} {ds : List Nat}
    {out : AgentState × ShuffleEffect}
    (h : handleShuffle cfg selfId st msg ds = some out)
    (hb : boundsOK cfg st) : boundsOK cfg out.1 := by
  unfold handleShuffle at h
  split at h
  · injection h with h
    subst h
    exact hb
  · cases hi : integrateLoop cfg selfId st.aView
        (chooseRandomCandidates st.pView msg.candidates.length (ds.headD 0))
        msg.candidates 0 st.pView ds.tail with
    | none => rw [hi] at h; exact absurd h (by simp)
    | some pv2 =>
      rw [hi] at h
      simp only [Option.map_some'] at h
      injection h with h
      subst h
      obtain ⟨i1, _⟩ := integrateLoop_spec hi hb.2
      exact ⟨hb.1, i1⟩

theorem integrateReplyLoop_spec {cfg : Config} {selfId : Nat}
    {cs : List Candidate} {st : AgentState} {ds : List Nat}
    {out : AgentState × List Nat}
    (h : integrateReplyLoop cfg selfId cs st ds = some out)
    (hb : boundsOK cfg st) : boundsOK cfg out.1 ∧ out.1.aView = st.aView := by
  induction cs generalizing st ds with
  | nil =>
    rw [integrateReplyLoop] at h
    injection h with h
    subst h
    exact ⟨hb, rfl⟩
  | cons c cs ih =>
    rw [integrateReplyLoop] at h
    cases hp : addNodePassiveView cfg selfId st ⟨c.id, c.addr⟩ ds with
    | none => rw [hp] at h; exact absurd h (by simp)
    | some pr =>
      rw [hp] at h
      simp only [Option.some_bind] at h
      obtain ⟨p1, _, p3⟩ := addNodePassiveView_spec hp
      obtain ⟨ihb, iha⟩ := ih h ⟨by rw [p1]; exact hb.1, p3 hb.2⟩
      exact ⟨ihb, by rw [iha, p1]⟩

theorem handleShuffleReply_bounds {cfg : Config} {selfId : Nat}
    {st st2 : AgentState} {msg : ShuffleReplyMsg} {ds : List Nat}
    (h : handleShuffleReply cfg selfId st msg ds = some st2)
    (hb : boundsOK cfg st) : boundsOK cfg st2 := by
  unfold handleShuffleReply at h
  cases hi : integrateReplyLoop cfg selfId msg.candidates st ds with
  | none => rw [hi] at h; exact absurd h (by simp)
  | some pr =>
    rw [hi] at h
    simp only [Option.map_some'] at h
    injection h with h
    subst h
    exact (integrateReplyLoop_spec hi hb).1

theorem handleUserMessage_views (hash : List Nat → List Nat) (cfg : Config)
    (now : Int) (st : AgentState) (sender : Node) (msg : UserMessage) :
    (handleUserMessage hash cfg now st sender msg).state.aView = st.aView ∧
    (handleUserMessage hash cfg now st sender msg).state.pView = st.pView := by
  unfold handleUserMessage
  split
  · exact ⟨rfl, rfl⟩
  · cases hg : st.msgBuffer.GetValueOf (hash msg.payload) with
    | some d =>
      dsimp only
      by_cases hd : d ≥ now
      · rw [if_pos hd]
        exact ⟨rfl, rfl⟩
      · rw [if_neg hd]
        exact ⟨rfl, rfl⟩
    | none => exact ⟨rfl, rfl⟩

/-! ## Reachable agent states

One step is one handler invocation (serveConn / serveNode dispatch) or
one successful Join() admission, with arbitrary message contents, sender,
wall-clock time, digest function, random draws and external outcomes.
Executions that panic or never return (the Option none results) produce
no successor state. -/

inductive Step (cfg : Config) (selfId : Nat) : AgentState → AgentState → Prop where
  | joinMsg (st : AgentState) (msg : JoinMsg) (ds : List Nat)
      (res : AcceptResult) (h : handleJoin cfg selfId st msg ds = some res) :
      Step cfg selfId st res.state
  | neighborMsg (st : AgentState) (msg : NeighborMsg) (ds : List Nat)
      (res : AcceptResult)
      (h : handleNeighbor cfg selfId st msg ds = some res) :
      Step cfg selfId st res.state
  | forwardJoinMsg (st st2 : AgentState) (msg : ForwardJoinMsg)
      (ds : List Nat) (h : handleForwardJoin cfg selfId st msg ds = some st2) :
      Step cfg selfId st st2
  | disconnectMsg (st st2 : AgentState) (nd : Node)
      (oracle : List (Bool × Option Bool)) (ds : List Nat)
      (h : replaceActiveNode cfg selfId st nd oracle ds = some st2) :
      Step cfg selfId st st2
  | shuffleMsg (st : AgentState) (msg : ShuffleMsg) (ds : List Nat)
      (out : AgentState × ShuffleEffect)
      (h : handleShuffle cfg selfId st msg ds = some out) :
      Step cfg selfId st out.1
  | shuffleReplyMsg (st st2 : AgentState) (msg : ShuffleReplyMsg)
      (ds : List Nat)
      (h : handleShuffleReply cfg selfId st msg ds = some st2) :
      Step cfg selfId st st2
  | userMsg (hash : List Nat → List Nat) (st : AgentState) (sender : Node)
      (msg : UserMessage) (now : Int) :
      Step cfg selfId st (handleUserMessage hash cfg now st sender msg).state
  | apiJoin (st : AgentState) (nd : Node) (ds : List Nat)
      (pr : AgentState × List Nat)
      (h : addNodeActiveView cfg selfId st nd ds = some pr) :
      Step cfg selfId st pr.1

/-- The agent states reachable from the fresh agent by handler
invocations. -/
inductive Reachable (cfg : Config) (selfId : Nat) : AgentState → Prop where
  | init : Reachable cfg selfId agentInit
  | step {st st2 : AgentState} : Reachable cfg selfId st →
      Step cfg selfId st st2 → Reachable cfg selfId st2

theorem Step_bounds {cfg : Config} {selfId : Nat} {st st2 : AgentState}
    (h : Step cfg selfId st st2) (hb : boundsOK cfg st) :
    boundsOK cfg st2 := by
  cases h with
  | joinMsg st msg ds res h => exact handleJoin_bounds h hb
  | neighborMsg st msg ds res h => exact handleNeighbor_bounds h hb
  | forwardJoinMsg st st2 msg ds h => exact handleForwardJoin_bounds h hb
  | disconnectMsg st st2 nd oracle ds h =>
    obtain ⟨h1, h2⟩ := replaceActiveNode_spec h
    exact ⟨h1 hb.1, h2 hb.2⟩
  | shuffleMsg st msg ds out h => exact handleShuffle_bounds h hb
  | shuffleReplyMsg st st2 msg ds h => exact handleShuffleReply_bounds h hb
  | userMsg hash st sender msg now =>
    obtain ⟨ha, hp⟩ := handleUserMessage_views hash cfg now st sender msg
    exact ⟨by rw [ha]; exact hb.1, by rw [hp]; exact hb.2⟩
  | apiJoin st nd ds pr h =>
    obtain ⟨h1, h2, _, _⟩ := addNodeActiveView_spec h
    exact ⟨h1 hb.1, h2 hb.2⟩

/-- C2: every reachable agent state keeps the active view within
AViewMaxSize and the passive view within PViewSize, and both
addNodeActiveView and addNodePassiveView preserve the bounds from any
state satisfying them (by evicting — a random active node is demoted to
the passive view after a Disconnect, a random passive victim is dropped —
before inserting when the view is full). -/
theorem claim_C2_bounds (cfg : Config) (selfId : Nat) :
    (∀ st, Reachable cfg selfId st → boundsOK cfg st) ∧
    (∀ st nd ds pr, boundsOK cfg st →
      addNodeActiveView cfg selfId st nd ds = some pr →
      boundsOK cfg pr.1) ∧
    (∀ st nd ds pr, boundsOK cfg st →
      addNodePassiveView cfg selfId st nd ds = some pr →
      boundsOK cfg pr.1) := by
  refine ⟨?_, ?_, ?_⟩
  · intro st h
    induction h with
    | init => exact ⟨by simp [agentInit, ArrayMap.empty, ArrayMap.Len],
        by simp [agentInit, ArrayMap.empty, ArrayMap.Len]⟩
    | step _ hs ih => exact Step_bounds hs ih
  · intro st nd ds pr hb h
    obtain ⟨h1, h2, _, _⟩ := addNodeActiveView_spec h
    exact ⟨h1 hb.1, h2 hb.2⟩
  · intro st nd ds pr hb h
    obtain ⟨h1, _, h3⟩ := addNodePassiveView_spec h
    exact ⟨by rw [h1]; exact hb.1, h3 hb.2⟩

/-- C2 witness: the bounds theorem applied to the concrete initial state
of an agent with the default configuration. -/
theorem claim_C2_bounds_witness : boundsOK cfgDefault agentInit :=
  (claim_C2_bounds cfgDefault 1).1 agentInit Reachable.init

/-- C1 (code-bug evaluation): a two-handler trace that violates view
disjointness.  A ShuffleReply candidate with id 2 enters the passive
view; a later Join from the same node 2 is accepted into the active view
by handleJoin / addNodeActiveView, which checks the active view but never
removes the id from the passive view.  After the trace, id 2 is in both
views. -/
theorem claim_C1_violation :
    ((handleShuffleReply cfgDefault 1 agentInit ⟨9, [⟨2, "b"⟩]⟩ []).bind
        fun st1 => (handleJoin cfgDefault 1 st1 ⟨2, "b"⟩ []).map
          fun res => (res.state.aView.Has 2, res.state.pView.Has 2)) =
      some (true, true) := by
  decide

/-! ## chooseRandomNode (claim C10) -/

namespace ArrayMap

theorem GetValueAt_mem_Values {K V : Type} [DecidableEq K]
    {a : ArrayMap K V} {i : Nat} (h : i < a.Len) :
    a.GetValueAt i h ∈ a.Values := by
  unfold GetValueAt Values
  rw [List.mem_map]
  exact ⟨a.entries.get ⟨i, h⟩, List.get_mem .., rfl⟩

theorem Values_length {K V : Type} [DecidableEq K] {a : ArrayMap K V} :
    a.Values.length = a.Len := by
  simp [Values, Len]

end ArrayMap

theorem values_id_get_ne {view : ArrayMap Nat Node}
    (hnd : (view.Values.map Node.id).Nodup) {i j : Nat}
    (hi : i < view.Len) (hj : j < view.Len) (hij : i ≠ j) :
    (view.GetValueAt i hi).id ≠ (view.GetValueAt j hj).id := by
  intro he
  apply hij
  have hi2 : i < (view.Values.map Node.id).length := by
    simpa [ArrayMap.Values, ArrayMap.Len] using hi
  have hj2 : j < (view.Values.map Node.id).length := by
    simpa [ArrayMap.Values, ArrayMap.Len] using hj
  have hij2 : (view.Values.map Node.id)[i] = (view.Values.map Node.id)[j] := by
    simpa [List.getElem_map, ArrayMap.Values, ArrayMap.GetValueAt,
      List.get_eq_getElem] using he
  exact (List.Nodup.getElem_inj_iff hnd).1 hij2

/-- C10: on a view whose stored node ids are pairwise distinct,
chooseRandomNode returns nil exactly when the view is empty or its single
entry carries the excluded id; with at least two entries it returns a
member of the view whose id differs from the excluded id, for every
random draw. -/
theorem claim_C10_chooseRandomNode (view : ArrayMap Nat Node)
    (excludeId r : Nat) (hnd : (view.Values.map Node.id).Nodup) :
    (chooseRandomNode view excludeId r = none ↔
      (view.Len = 0 ∨ (view.Len = 1 ∧
        ∃ nd ∈ view.Values, nd.id = excludeId))) ∧
    (2 ≤ view.Len →
      ∃ nd, chooseRandomNode view excludeId r = some nd ∧
        nd ∈ view.Values ∧ nd.id ≠ excludeId) := by
  unfold chooseRandomNode
  by_cases h0 : view.Len = 0
  · rw [dif_pos h0]
    refine ⟨⟨fun _ => Or.inl h0, fun _ => rfl⟩, fun h2 => ?_⟩
    omega
  · rw [dif_neg h0]
    dsimp only
    by_cases hex : (view.GetValueAt (r % view.Len)
        (Nat.mod_lt r (Nat.pos_of_ne_zero h0))).id = excludeId
    · rw [if_pos hex]
      by_cases h1 : view.Len = 1
      · rw [if_pos h1]
        refine ⟨⟨fun _ => Or.inr ⟨h1, _, ArrayMap.GetValueAt_mem_Values _,
          hex⟩, fun _ => rfl⟩, fun h2 => ?_⟩
        omega
      · rw [if_neg h1]
        have hij : (r % view.Len + 1) % view.Len ≠ r % view.Len := by
          have hr : r % view.Len < view.Len :=
            Nat.mod_lt r (Nat.pos_of_ne_zero h0)
          by_cases hcase : r % view.Len + 1 < view.Len
          · rw [Nat.mod_eq_of_lt hcase]; omega
          · have he2 : r % view.Len + 1 = view.Len := by omega
            rw [he2, Nat.mod_self]
            omega
        refine ⟨⟨fun hcontra => absurd hcontra (by simp), ?_⟩, fun _ => ?_⟩
        · rintro (h | ⟨h, _⟩)
          · exact absurd h h0
          · exact absurd h h1
        · refine ⟨_, rfl, ArrayMap.GetValueAt_mem_Values _, ?_⟩
          rw [← hex]
          exact values_id_get_ne hnd _ _ hij
    · rw [if_neg hex]
      refine ⟨⟨fun hcontra => absurd hcontra (by simp), ?_⟩, fun _ => ?_⟩
      · rintro (h | ⟨h1, nd2, hmem, hid⟩)
        · exact absurd h h0
        · exfalso
          apply hex
          have hlen1 : view.Values.length = 1 := by
            rw [ArrayMap.Values_length]; exact h1
          obtain ⟨x, hx⟩ := List.length_eq_one.1 hlen1
          have hm1 : view.GetValueAt (r % view.Len)
              (Nat.mod_lt r (Nat.pos_of_ne_zero h0)) ∈ view.Values :=
            ArrayMap.GetValueAt_mem_Values _
          rw [hx] at hm1 hmem
          rw [List.mem_singleton] at hm1 hmem
          exact (congrArg Node.id hm1).trans (hmem ▸ hid)
      · exact ⟨_, rfl, ArrayMap.GetValueAt_mem_Values _, hex⟩

/-- A concrete two-entry view for the C10 witness. -/
def view0 : ArrayMap Nat Node := ⟨[(1, ⟨1, "x"⟩), (2, ⟨2, "y"⟩)]⟩

/-- C10 witness: on a concrete two-entry view with distinct ids, the
theorem yields a returned member avoiding the excluded id. -/
theorem claim_C10_chooseRandomNode_witness :
    ∃ nd, chooseRandomNode view0 1 0 = some nd ∧
      nd ∈ view0.Values ∧ nd.id ≠ 1 :=
  (claim_C10_chooseRandomNode view0 1 0 (by decide)).2 (by decide)

/-! ## handleNeighbor acceptance (claim C6) -/

/-- C6: handleNeighbor accepts — replying accept=true (the accept field
is the replied decision) and adding the sender to the active view — iff
the sender's id differs from the agent's own, is not already in the
active view, and the priority is High or the active view is not full;
otherwise it replies accept=false and leaves the whole state, in
particular both views, unchanged. -/
theorem claim_C6_neighbor (cfg : Config) (selfId : Nat) (st : AgentState)
    (msg : NeighborMsg) (ds : List Nat) (res : AcceptResult)
    (h : handleNeighbor cfg selfId st msg ds = some res) :
    (res.accept = true ↔ (msg.id ≠ selfId ∧ st.aView.Has msg.id = false ∧
      (msg.priority = Priority.high ∨ st.aView.Len < cfg.AViewMaxSize))) ∧
    (res.accept = false → res.state = st) ∧
    (res.accept = true → res.state.aView.Has msg.id = true) := by
  unfold handleNeighbor at h
  dsimp only at h
  split at h
  · rename_i hcond
    cases ha : addNodeActiveView cfg selfId st ⟨msg.id, msg.addr⟩ ds with
    | none => rw [ha] at h; exact absurd h (by simp)
    | some pr =>
      rw [ha] at h
      simp only [Option.map_some'] at h
      injection h with h
      subst h
      obtain ⟨_, _, _, h4⟩ := addNodeActiveView_spec ha
      refine ⟨⟨fun _ => hcond, fun _ => rfl⟩, fun hfalse => ?_, fun _ => h4⟩
      simp at hfalse
  · rename_i hcond
    injection h with h
    subst h
    exact ⟨⟨fun htrue => by simp at htrue, fun hc => absurd hc hcond⟩,
      fun _ => rfl, fun htrue => by simp at htrue⟩

/-- The result of the concrete accepted Neighbor of the C6 witness. -/
def res0 : AcceptResult := ⟨true, ⟨⟨[(2, ⟨2, "a"⟩)]⟩, ⟨[]⟩, ⟨[]⟩⟩⟩

/-- C6 witness: a low-priority Neighbor from node 2 arriving at the
fresh agent 1 is accepted (the active view has free slots). -/
theorem claim_C6_neighbor_witness :
    (res0.accept = true ↔ ((2 : Nat) ≠ 1 ∧ agentInit.aView.Has 2 = false ∧
      (Priority.low = Priority.high ∨
        agentInit.aView.Len < cfgDefault.AViewMaxSize))) ∧
    (res0.accept = false → res0.state = agentInit) ∧
    (res0.accept = true → res0.state.aView.Has 2 = true) :=
  claim_C6_neighbor cfgDefault 1 agentInit ⟨2, "a", Priority.low⟩ [] res0
    (by decide)

/-! ## handleShuffle (claim C7) -/

theorem chooseRandomCandidates_length (view : ArrayMap Nat Node)
    (n r : Nat) :
    (chooseRandomCandidates view n r).length = min n view.Len := by
  unfold chooseRandomCandidates
  by_cases h : view.Len = 0
  · rw [dif_pos h]
    simp [h]
  · rw [dif_neg h]
    simp

theorem chooseRandomCandidates_mem (view : ArrayMap Nat Node) (n r : Nat) :
    ∀ c ∈ chooseRandomCandidates view n r,
      ∃ nd ∈ view.Values, c.id = nd.id ∧ c.addr = nd.addr := by
  intro c hc
  unfold chooseRandomCandidates at hc
  by_cases h : view.Len = 0
  · rw [dif_pos h] at hc
    simp at hc
  · rw [dif_neg h] at hc
    rw [List.mem_map] at hc
    obtain ⟨i, _, rfl⟩ := hc
    exact ⟨_, ArrayMap.GetValueAt_mem_Values _, rfl, rfl⟩

theorem integrateLoop_has {cfg : Config} {selfId : Nat}
    {aView : ArrayMap Nat Node} {reply cs : List Candidate} {i : Nat}
    {pv pv2 : ArrayMap Nat Node} {ds : List Nat}
    (h : integrateLoop cfg selfId aView reply cs i pv ds = some pv2) :
    ∀ k, pv2.Has k = true → pv.Has k = true ∨
      ∃ c ∈ cs, c.id = k ∧ k ≠ selfId ∧ aView.Has k = false := by
  induction cs generalizing i pv ds with
  | nil =>
    rw [integrateLoop] at h
    injection h with h
    subst h
    exact fun k hk => Or.inl hk
  | cons c cs ih =>
    rw [integrateLoop] at h
    split at h
    · intro k hk
      rcases ih h k hk with hk2 | ⟨c2, hc2, hrest⟩
      · exact Or.inl hk2
      · exact Or.inr ⟨c2, List.mem_cons_of_mem _ hc2, hrest⟩
    · rename_i hskip
      push_neg at hskip
      obtain ⟨hs1, hs2, hs3⟩ := hskip
      cases hm : makeSpaceLoop cfg.PViewSize reply (pv.Len + reply.length + 1)
          i pv ds with
      | none => rw [hm] at h; exact absurd h (by simp)
      | some out =>
        rw [hm] at h
        simp only [Option.some_bind] at h
        obtain ⟨_, m2⟩ := makeSpaceLoop_spec hm
        intro k hk
        rcases ih h k hk with hk2 | ⟨c2, hc2, hrest⟩
        · rcases ArrayMap.Has_of_Has_Add hk2 with rfl | hk3
          · refine Or.inr ⟨c, List.mem_cons_self _ _, rfl, hs1, ?_⟩
            cases hae : aView.Has c.id
            · rfl
            · exact absurd hae hs2
          · exact Or.inl (m2 k hk3)
        · exact Or.inr ⟨c2, List.mem_cons_of_mem _ hc2, hrest⟩

/-- C7: handleShuffle with positive ttl and more than one active node
forwards the Shuffle, rewritten with the agent's id and ttl minus one, to
an active node other than the message's sender (for every draw) and
leaves the state, in particular both views, unchanged.  Otherwise it
replies with up to |msg.candidates| candidates read from the passive
view and integrates the received candidates into the passive view: the
active view is unchanged, and every id that enters the passive view is a
received candidate id that differs from the agent's own id and is absent
from the active view. -/
theorem claim_C7_shuffle (cfg : Config) (selfId : Nat) (st : AgentState)
    (msg : ShuffleMsg) (ds : List Nat)
    (hnd : (st.aView.Values.map Node.id).Nodup) :
    (0 < msg.ttl ∧ 1 < st.aView.Len →
      ∃ nd, handleShuffle cfg selfId st msg ds =
          some (st, ShuffleEffect.forwarded (some nd)
            { msg with id := selfId, ttl := msg.ttl - 1 }) ∧
        nd ∈ st.aView.Values ∧ nd.id ≠ msg.id) ∧
    (¬ (0 < msg.ttl ∧ 1 < st.aView.Len) →
      ∀ out, handleShuffle cfg selfId st msg ds = some out →
        out.1.aView = st.aView ∧ out.1.msgBuffer = st.msgBuffer ∧
        (∃ reply, out.2 = ShuffleEffect.replied reply ∧
          reply.length = min msg.candidates.length st.pView.Len ∧
          ∀ c ∈ reply, ∃ nd ∈ st.pView.Values,
            c.id = nd.id ∧ c.addr = nd.addr) ∧
        (∀ k, out.1.pView.Has k = true →
          st.pView.Has k = true ∨
            ∃ c ∈ msg.candidates, c.id = k ∧ k ≠ selfId ∧
              st.aView.Has k = false)) := by
  constructor
  · intro hcond
    unfold handleShuffle
    rw [if_pos hcond]
    have h0 : ¬ st.aView.Len = 0 := by omega
    unfold chooseRandomNode
    rw [dif_neg h0]
    dsimp only
    by_cases hex : (st.aView.GetValueAt (ds.headD 0 % st.aView.Len)
        (Nat.mod_lt (ds.headD 0) (Nat.pos_of_ne_zero h0))).id = msg.id
    · rw [if_pos hex]
      have h1 : ¬ st.aView.Len = 1 := by omega
      rw [if_neg h1]
      refine ⟨_, rfl, ArrayMap.GetValueAt_mem_Values _, ?_⟩
      rw [← hex]
      apply values_id_get_ne hnd
      have hr : ds.headD 0 % st.aView.Len < st.aView.Len :=
        Nat.mod_lt (ds.headD 0) (Nat.pos_of_ne_zero h0)
      by_cases hcase : ds.headD 0 % st.aView.Len + 1 < st.aView.Len
      · rw [Nat.mod_eq_of_lt hcase]
        omega
      · have he2 : ds.headD 0 % st.aView.Len + 1 = st.aView.Len := by omega
        rw [he2, Nat.mod_self]
        omega
    · rw [if_neg hex]
      exact ⟨_, rfl, ArrayMap.GetValueAt_mem_Values _, hex⟩
  · intro hcond out hout
    unfold handleShuffle at hout
    rw [if_neg hcond] at hout
    cases hi : integrateLoop cfg selfId st.aView
        (chooseRandomCandidates st.pView msg.candidates.length (ds.headD 0))
        msg.candidates 0 st.pView ds.tail with
    | none => rw [hi] at hout; exact absurd hout (by simp)
    | some pv2 =>
      rw [hi] at hout
      simp only [Option.map_some'] at hout
      injection hout with hout
      subst hout
      refine ⟨rfl, rfl, ⟨_, rfl, chooseRandomCandidates_length .., fun c hc =>
        chooseRandomCandidates_mem _ _ _ c hc⟩, fun k hk => ?_⟩
      exact integrateLoop_has hi k hk

/-- A concrete agent state with two active nodes for the C7 and C8
witnesses. -/
def stA : AgentState := ⟨⟨[(2, ⟨2, "x"⟩), (3, ⟨3, "y"⟩)]⟩, ⟨[]⟩, ⟨[]⟩⟩

/-- C7 witness: a Shuffle with ttl 3 from node 5 arriving when two nodes
are active is forwarded with ttl 2 to an active node other than 5. -/
theorem claim_C7_shuffle_witness :
    ∃ nd, handleShuffle cfgDefault 1 stA ⟨5, 5, "s", [], 3⟩ [0] =
        some (stA, ShuffleEffect.forwarded (some nd) ⟨1, 5, "s", [], 2⟩) ∧
      nd ∈ stA.aView.Values ∧ nd.id ≠ 5 :=
  (claim_C7_shuffle cfgDefault 1 stA ⟨5, 5, "s", [], 3⟩ [0] (by decide)).1
    (by decide)

/-! ## handleUserMessage (claims C3 and C8) -/

namespace ArrayMap

variable {K V : Type} [DecidableEq K]

theorem findIndex_congr {l l2 : List (K × V)}
    (h : l.map Prod.fst = l2.map Prod.fst) (k : K) :
    findIndex l k = findIndex l2 k := by
  induction l generalizing l2 with
  | nil =>
    cases l2 with
    | nil => rfl
    | cons e es => simp at h
  | cons e es ih =>
    cases l2 with
    | nil => simp at h
    | cons e2 es2 =>
      simp only [List.map_cons, List.cons.injEq] at h
      obtain ⟨h1, h2⟩ := h
      rw [findIndex, findIndex, h1, ih h2]

theorem findIndex_append_of_none {l : List (K × V)} {k : K}
    (h : findIndex l k = none) (v : V) :
    findIndex (l ++ [(k, v)]) k = some l.length := by
  induction l with
  | nil => simp [findIndex]
  | cons e es ih =>
    rw [findIndex] at h
    by_cases he : e.1 = k
    · rw [if_pos he] at h
      exact absurd h (by simp)
    · rw [if_neg he] at h
      have h2 : findIndex es k = none := by
        cases hf : findIndex es k with
        | none => rfl
        | some j => rw [hf] at h; simp at h
      rw [List.cons_append, findIndex, if_neg he, ih h2]
      simp

theorem GetValueOf_Add_self {a : ArrayMap K V} {k : K} {v : V} :
    (a.Add k v).1.GetValueOf k = some v := by
  unfold Add GetValueOf
  cases hf : findIndex a.entries k with
  | some p =>
    obtain ⟨hp, hkey⟩ := findIndex_spec hf
    simp only
    have hkeys : (a.entries.set p (k, v)).map Prod.fst
        = a.entries.map Prod.fst := by
      rw [List.map_set]
      have hp2 : p < (a.entries.map Prod.fst).length := by simpa using hp
      have hk2 : (a.entries.map Prod.fst).get ⟨p, hp2⟩ = k := by
        rw [List.get_map]
        exact hkey
      apply List.ext_get (by simp [List.length_set])
      intro n h1 h2
      simp only [List.get_eq_getElem]
      by_cases hnp : p = n
      · subst hnp
        simp only [List.getElem_set_self]
        rw [← hk2]
        simp [List.get_eq_getElem]
      · rw [List.getElem_set_ne hnp]
    rw [findIndex_congr hkeys k, hf]
    simp only [Option.some_bind]
    rw [List.get?_eq_get (by simpa [List.length_set] using hp)]
    simp only [Option.map_some']
    congr 1
    simp only [List.get_eq_getElem]
    simp only [List.getElem_set_self]
  | none =>
    simp only
    rw [findIndex_append_of_none hf v]
    simp only [Option.some_bind]
    rw [List.get?_concat_length]
    simp

end ArrayMap

theorem handleUserMessage_stale {hash : List Nat → List Nat} {cfg : Config}
    {now : Int} {st : AgentState} {sender : Node} {msg : UserMessage}
    (h : now ≥ msg.ts + 1000000 * (cfg.MLife : Int)) :
    handleUserMessage hash cfg now st sender msg = ⟨st, none, []⟩ := by
  unfold handleUserMessage
  rw [if_pos h]

theorem handleUserMessage_dup {hash : List Nat → List Nat} {cfg : Config}
    {now : Int} {st : AgentState} {sender : Node} {msg : UserMessage}
    {d : Int} (h : ¬ now ≥ msg.ts + 1000000 * (cfg.MLife : Int))
    (hg : st.msgBuffer.GetValueOf (hash msg.payload) = some d)
    (hd : d ≥ now) :
    handleUserMessage hash cfg now st sender msg = ⟨st, none, []⟩ := by
  unfold handleUserMessage
  rw [if_neg h, hg]
  dsimp only
  rw [if_pos hd]

theorem handleUserMessage_accept_expired {hash : List Nat → List Nat}
    {cfg : Config} {now : Int} {st : AgentState} {sender : Node}
    {msg : UserMessage} {d : Int}
    (h : ¬ now ≥ msg.ts + 1000000 * (cfg.MLife : Int))
    (hg : st.msgBuffer.GetValueOf (hash msg.payload) = some d)
    (hd : ¬ d ≥ now) :
    handleUserMessage hash cfg now st sender msg =
      ⟨{ st with msgBuffer :=
          (((st.msgBuffer.Remove (hash msg.payload)).1).Add
            (hash msg.payload)
            (now + 1000000 * (cfg.PurgeDuration : Int))).1 },
        some msg.payload,
        st.aView.Values.filter (fun nd => decide (nd.id ≠ sender.id))⟩ := by
  unfold handleUserMessage
  rw [if_neg h, hg]
  dsimp only
  rw [if_neg hd]

theorem handleUserMessage_accept_fresh {hash : List Nat → List Nat}
    {cfg : Config} {now : Int} {st : AgentState} {sender : Node}
    {msg : UserMessage}
    (h : ¬ now ≥ msg.ts + 1000000 * (cfg.MLife : Int))
    (hg : st.msgBuffer.GetValueOf (hash msg.payload) = none) :
    handleUserMessage hash cfg now st sender msg =
      ⟨{ st with msgBuffer :=
          (st.msgBuffer.Add (hash msg.payload)
            (now + 1000000 * (cfg.PurgeDuration : Int))).1 },
        some msg.payload,
        st.aView.Values.filter (fun nd => decide (nd.id ≠ sender.id))⟩ := by
  unfold handleUserMessage
  rw [if_neg h, hg]

theorem handleUserMessage_suppressed {hash : List Nat → List Nat}
    {cfg : Config} {now2 : Int} {st2 : AgentState} {sender2 : Node}
    {msg2 : UserMessage} {purge : Int}
    (hg : st2.msgBuffer.GetValueOf (hash msg2.payload) = some purge)
    (hp : purge ≥ now2) :
    (handleUserMessage hash cfg now2 st2 sender2 msg2).delivered = none := by
  by_cases hst2 : now2 ≥ msg2.ts + 1000000 * (cfg.MLife : Int)
  · rw [handleUserMessage_stale hst2]
  · rw [handleUserMessage_dup hst2 hg hp]

/-- C3: handleUserMessage discards a UserMessage — no delivery, no
forwarding, msgBuffer untouched — exactly when the message is stale
(now at or past ts + MLife milliseconds) or the payload digest is
recorded with a purge deadline at or after now.  Otherwise it delivers
the payload exactly once, records the digest with deadline
now + PurgeDuration milliseconds, and any later invocation with the same
digest at a time inside that window delivers nothing. -/
theorem claim_C3_dedup (hash : List Nat → List Nat) (cfg : Config)
    (now : Int) (st : AgentState) (sender : Node) (msg : UserMessage) :
    (((handleUserMessage hash cfg now st sender msg).delivered = none ∧
      (handleUserMessage hash cfg now st sender msg).forwards = [] ∧
      (handleUserMessage hash cfg now st sender msg).state.msgBuffer
        = st.msgBuffer) ↔
      (now ≥ msg.ts + 1000000 * (cfg.MLife : Int) ∨
        ∃ d, st.msgBuffer.GetValueOf (hash msg.payload) = some d ∧
          d ≥ now)) ∧
    (¬ now ≥ msg.ts + 1000000 * (cfg.MLife : Int) →
      (∀ d, st.msgBuffer.GetValueOf (hash msg.payload) = some d → d < now) →
      (handleUserMessage hash cfg now st sender msg).delivered
          = some msg.payload ∧
      (handleUserMessage hash cfg now st sender msg).forwards
          = st.aView.Values.filter (fun nd => decide (nd.id ≠ sender.id)) ∧
      (handleUserMessage hash cfg now
          st sender msg).state.msgBuffer.GetValueOf (hash msg.payload)
        = some (now + 1000000 * (cfg.PurgeDuration : Int)) ∧
      (∀ now2 sender2 msg2, hash msg2.payload = hash msg.payload →
        now2 ≤ now + 1000000 * (cfg.PurgeDuration : Int) →
        (handleUserMessage hash cfg now2
          (handleUserMessage hash cfg now st sender msg).state
          sender2 msg2).delivered = none)) := by
  by_cases hstale : now ≥ msg.ts + 1000000 * (cfg.MLife : Int)
  · rw [handleUserMessage_stale hstale]
    exact ⟨⟨fun _ => Or.inl hstale, fun _ => ⟨rfl, rfl, rfl⟩⟩,
      fun hns _ => absurd hstale hns⟩
  · cases hg : st.msgBuffer.GetValueOf (hash msg.payload) with
    | some d =>
      by_cases hd : d ≥ now
      · rw [handleUserMessage_dup hstale hg hd]
        exact ⟨⟨fun _ => Or.inr ⟨d, rfl, hd⟩, fun _ => ⟨rfl, rfl, rfl⟩⟩,
          fun _ hfresh => absurd (hfresh d rfl) (by omega)⟩
      · rw [handleUserMessage_accept_expired hstale hg hd]
        constructor
        · constructor
          · rintro ⟨hdel, _, _⟩
            exact absurd hdel (by simp)
          · rintro (hs | ⟨d2, hg2, hd2⟩)
            · exact absurd hs hstale
            · injection hg2 with hg2
              subst hg2
              exact absurd hd2 hd
        · intro _ _
          refine ⟨rfl, rfl, ArrayMap.GetValueOf_Add_self, ?_⟩
          intro now2 sender2 msg2 hh hle
          exact handleUserMessage_suppressed
            (by rw [hh]; exact ArrayMap.GetValueOf_Add_self) (by omega)
    | none =>
      rw [handleUserMessage_accept_fresh hstale hg]
      constructor
      · constructor
        · rintro ⟨hdel, _, _⟩
          exact absurd hdel (by simp)
        · rintro (hs | ⟨d2, hg2, _⟩)
          · exact absurd hs hstale
          · exact absurd hg2 (by simp)
      · intro _ _
        refine ⟨rfl, rfl, ArrayMap.GetValueOf_Add_self, ?_⟩
        intro now2 sender2 msg2 hh hle
        exact handleUserMessage_suppressed
          (by rw [hh]; exact ArrayMap.GetValueOf_Add_self) (by omega)

/-- C3 witness: a fresh non-stale message at the two-active-node agent
is delivered to the handler. -/
theorem claim_C3_dedup_witness :
    (handleUserMessage (fun p => p) cfgDefault 0 stA ⟨2, "x"⟩
        ⟨7, [1], 0⟩).delivered = some [1] :=
  ((claim_C3_dedup (fun p => p) cfgDefault 0 stA ⟨2, "x"⟩ ⟨7, [1], 0⟩).2
    (by decide) (fun d hd => Option.noConfusion hd)).1

/-- C8: an accepted (neither stale nor suppressed) UserMessage is
forwarded to exactly the nodes currently in the active view whose id
differs from the node the message arrived from, and to no other node. -/
theorem claim_C8_forwards (hash : List Nat → List Nat) (cfg : Config)
    (now : Int) (st : AgentState) (sender : Node) (msg : UserMessage)
    (hstale : ¬ now ≥ msg.ts + 1000000 * (cfg.MLife : Int))
    (hfresh : ∀ d, st.msgBuffer.GetValueOf (hash msg.payload) = some d →
      d < now) :
    (handleUserMessage hash cfg now st sender msg).forwards =
      st.aView.Values.filter (fun nd => decide (nd.id ≠ sender.id)) := by
  cases hg : st.msgBuffer.GetValueOf (hash msg.payload) with
  | some d =>
    rw [handleUserMessage_accept_expired hstale hg
      (by have := hfresh d hg; omega)]
  | none => rw [handleUserMessage_accept_fresh hstale hg]

/-- C8 witness: the accepted message arriving from node 2 is forwarded
to exactly the other active node. -/
theorem claim_C8_forwards_witness :
    (handleUserMessage (fun p => p) cfgDefault 0 stA ⟨2, "x"⟩
        ⟨7, [1], 0⟩).forwards =
      stA.aView.Values.filter
        (fun nd => decide (nd.id ≠ (⟨2, "x"⟩ : Node).id)) :=
  claim_C8_forwards (fun p => p) cfgDefault 0 stA ⟨2, "x"⟩ ⟨7, [1], 0⟩
    (by decide) (fun d hd => Option.noConfusion hd)
